import Mathlib

/-!
# qtyaml: YAML conversions for Qt value types

A shallow embedding of `qtyaml.h`, the header that specialises the YAML
library's `convert<T>` template for `QString`, `QMap`, `QVector`, `QList`,
`QPair` and `QVariant`.

Conventions of the embedding:

* A `convert<T>` specialisation is a record `Convert T` holding `encode`,
  `decode` and the value of a default-constructed `T`.
* `decode(const Node&, T& rhs)` writes through a reference and either returns
  a `bool`, lets a C++ exception escape, or does not return.  It is embedded as
  a function from the node and the prior content of `rhs` to an `Outcome T`,
  which records the content of `rhs` at the moment control leaves the call.
* The YAML library and the Qt containers are outside the header.  They are
  modelled by the small set of operations the header calls on them.
-/

namespace QtYaml

/-! ## Data model -/

/-- A `std::string`: a sequence of bytes, each a number below 256. -/
abbrev StdString := List Nat

/-- A `QString`: a sequence of UTF-16 code units, each a number below 65536. -/
structure QString where
  utf16 : List Nat
deriving Repr

/-- The comparison `operator<` of `QString`: lexicographic on the code units.
`QMap<QString, V>` orders its keys with it. -/
instance QString.instLinearOrder : LinearOrder QString :=
  LinearOrder.lift' QString.utf16 (fun a b h => by cases a; cases b; simp_all)

/-- Modelled from the spec: the two conversions of the framework string type
that the header calls, `QString::toStdString` (text to UTF-8 bytes) and
`QString::fromStdString` (UTF-8 bytes to text).  They live in the Qt library,
so the adapters take them as a parameter. -/
structure StringCodec where
  toStdString : QString → StdString
  fromStdString : StdString → QString

/-- Modelled from the spec: the value tree of the YAML library, with the
variants Scalar (string payload), Sequence (ordered list of nodes), Map
(ordered list of key and value nodes), Null and Undefined.  A default
constructed `Node()` is `null`.  The children of a sequence or a map are taken
to be defined nodes, so `size()` is the number of children and iteration visits
every child. -/
inductive Node where
  | undefined : Node
  | null : Node
  | scalar (payload : StdString) : Node
  | sequence (children : List Node) : Node
  | map (entries : List (Node × Node)) : Node

/-- The kind test `Node::IsScalar()`. -/
def Node.IsScalar : Node → Bool
  | .scalar _ => true
  | _ => false

/-- The kind test `Node::IsSequence()`. -/
def Node.IsSequence : Node → Bool
  | .sequence _ => true
  | _ => false

/-- The kind test `Node::IsMap()`. -/
def Node.IsMap : Node → Bool
  | .map _ => true
  | _ => false

/-- The kind test `Node::IsNull()`. -/
def Node.IsNull : Node → Bool
  | .null => true
  | _ => false

/-- The test `Node::IsDefined()`. -/
def Node.IsDefined : Node → Bool
  | .undefined => false
  | _ => true

/-- The accessor `Node::Scalar()`: the payload of a scalar, the empty string otherwise. -/
def Node.Scalar : Node → StdString
  | .scalar payload => payload
  | _ => []

/-- The accessor `Node::size()`: the number of children of a sequence or of entries of a
map, `0` for every other node. -/
def Node.size : Node → Nat
  | .sequence children => children.length
  | .map entries => entries.length
  | _ => 0

/-- The nodes visited by `node.begin() .. node.end()` when the iterator is
dereferenced as a node (`*it`): the children of a sequence. -/
def Node.elements : Node → List Node
  | .sequence children => children
  | _ => []

/-- The pairs visited by `node.begin() .. node.end()` when the iterator is
dereferenced as a pair (`it->first`, `it->second`): the entries of a map. -/
def Node.pairs : Node → List (Node × Node)
  | .map entries => entries
  | _ => []

/-- The subscript `node[i]` on a `const Node` with an integer index: the child of a sequence
at that position.  `none` stands for the invalid node the library hands out
when there is no such child. -/
def Node.subscript : Node → Nat → Option Node
  | .sequence children, i => children.get? i
  | _, _ => none

/-- The exception classes of the YAML library that a conversion can raise. -/
inductive Exception where
  | InvalidNode : Exception
  | BadConversion : Exception
deriving DecidableEq, Repr

/-- How the evaluation of an expression of type `α` ends: with a value, with an
exception, or not at all. -/
inductive Result (α : Type) where
  | value (a : α) : Result α
  | raised (e : Exception) : Result α
  | diverged : Result α
deriving DecidableEq, Repr

/-- How a call `decode(node, rhs)` ends.  `returned ok out`: it returned `ok`
and `rhs` holds `out`.  `threw e out`: exception `e` left the call and `rhs`
holds `out`.  `diverged`: the call does not return. -/
inductive Outcome (α : Type) where
  | returned (ok : Bool) (out : α) : Outcome α
  | threw (e : Exception) (out : α) : Outcome α
  | diverged : Outcome α
deriving DecidableEq, Repr

/-- A specialisation `convert<T>`: its two static functions, and the value a
default-constructed `T t;` holds. -/
structure Convert (T : Type) where
  init : T
  encode : T → Node
  decode : Node → T → Outcome T

/-- Modelled from the spec: the type-directed extraction `Node::as<T>()` of the
YAML library, which invokes `decode` for the requested type and yields the
value or a failure signal.  It default-constructs a `T`, calls
`convert<T>::decode` on it, returns the value when `decode` returned `true`
and throws a bad-conversion exception when it returned `false`. -/
def Node.as {T : Type} (c : Convert T) (node : Node) : Result T :=
  match c.decode node c.init with
  | .returned true t => .value t
  | .returned false _ => .raised .BadConversion
  | .threw e _ => .raised e
  | .diverged => .diverged

/-- The expression `node[i].as<T>()`: extraction from the result of a subscript; the invalid
node throws. -/
def Node.subscriptAs {T : Type} (c : Convert T) (node : Node) (i : Nat) : Result T :=
  match node.subscript i with
  | some child => child.as c
  | none => .raised .InvalidNode

/-- A `QVector<T>`, as the list of its elements in index order. -/
abbrev QVector (T : Type) := List T

/-- A `QList<T>`, as the list of its elements in index order. -/
abbrev QList (T : Type) := List T

/-- A `QPair<T, U>` with its members `first` and `second`. -/
abbrev QPair (T U : Type) := T × U

/-- A `QMap<Key, Value>`, as the list of its entries in iteration order, which
is ascending key order with every key occurring once. -/
abbrev QMap (Key Value : Type) := List (Key × Value)

/-- The representation invariant of a `QMap`: keys strictly ascending. -/
def QMap.WellFormed {Key Value : Type} [LT Key] (m : QMap Key Value) : Prop :=
  List.Pairwise (fun a b => a.1 < b.1) m

instance QMap.decidableWellFormed {Key Value : Type} [LT Key]
    [DecidableRel (fun a b : Key => a < b)] (m : QMap Key Value) : Decidable m.WellFormed :=
  inferInstanceAs (Decidable (List.Pairwise (fun a b : Key × Value => a.1 < b.1) m))

/-- The assignment `rhs[key] = value` on a `QMap`: replaces the value of an entry with that
key, or inserts a new entry at its place in key order. -/
def QMap.assign {Key Value : Type} [LT Key] [DecidableRel (fun a b : Key => a < b)] :
    QMap Key Value → Key → Value → QMap Key Value
  | [], key, value => [(key, value)]
  | (k, v) :: rest, key, value =>
    if key < k then (key, value) :: (k, v) :: rest
    else if k < key then (k, v) :: QMap.assign rest key value
    else (k, value) :: rest

/-- The accessor `QMap::keys()`: the keys in iteration order. -/
def QMap.keys {Key Value : Type} (m : QMap Key Value) : List Key :=
  m.map Prod.fst

/-- Lookup of `key` in a `QMap` (`QMap::find`): the value stored under it,
if any. -/
def QMap.find {Key Value : Type} [DecidableEq Key] : QMap Key Value → Key → Option Value
  | [], _ => none
  | (k, v) :: rest, key => if k = key then some v else QMap.find rest key

/-! ## A UTF-8 codec for concrete evaluation -/

/-- The code points of a UTF-16 unit sequence.  `pending` holds a high
surrogate that waits for its low surrogate; an unpaired surrogate is replaced
by U+FFFD. -/
def utf16ToCodePoints : Option Nat → List Nat → List Nat
  | none, [] => []
  | some _, [] => [0xFFFD]
  | none, u :: rest =>
    if 0xD800 ≤ u ∧ u < 0xDC00 then utf16ToCodePoints (some u) rest
    else if 0xDC00 ≤ u ∧ u < 0xE000 then 0xFFFD :: utf16ToCodePoints none rest
    else u :: utf16ToCodePoints none rest
  | some hi, u :: rest =>
    if 0xDC00 ≤ u ∧ u < 0xE000 then
      (0x10000 + (hi - 0xD800) * 0x400 + (u - 0xDC00)) :: utf16ToCodePoints none rest
    else if 0xD800 ≤ u ∧ u < 0xDC00 then 0xFFFD :: utf16ToCodePoints (some u) rest
    else 0xFFFD :: u :: utf16ToCodePoints none rest

/-- The UTF-16 units of one code point. -/
def codePointToUtf16 (c : Nat) : List Nat :=
  if c < 0x10000 then [c]
  else [0xD800 + (c - 0x10000) / 0x400, 0xDC00 + (c - 0x10000) % 0x400]

/-- The UTF-8 bytes of one code point. -/
def codePointToUtf8 (c : Nat) : List Nat :=
  if c < 0x80 then [c]
  else if c < 0x800 then [0xC0 + c / 0x40, 0x80 + c % 0x40]
  else if c < 0x10000 then [0xE0 + c / 0x1000, 0x80 + c / 0x40 % 0x40, 0x80 + c % 0x40]
  else [0xF0 + c / 0x40000, 0x80 + c / 0x1000 % 0x40, 0x80 + c / 0x40 % 0x40, 0x80 + c % 0x40]

/-- The effect of a byte read at the start of a UTF-8 sequence: the code points
completed, the number of continuation bytes awaited, and the bits read. -/
def utf8Lead (b : Nat) : List Nat × Nat × Nat :=
  if b < 0x80 then ([b], 0, 0)
  else if 0xC0 ≤ b ∧ b < 0xE0 then ([], 1, b - 0xC0)
  else if 0xE0 ≤ b ∧ b < 0xF0 then ([], 2, b - 0xE0)
  else if 0xF0 ≤ b ∧ b < 0xF8 then ([], 3, b - 0xF0)
  else ([0xFFFD], 0, 0)

/-- The code points of a UTF-8 byte sequence, given the number of continuation
bytes awaited and the bits read so far; a malformed sequence is replaced by
U+FFFD. -/
def utf8ToCodePoints : Nat → Nat → List Nat → List Nat
  | 0, _, [] => []
  | _ + 1, _, [] => [0xFFFD]
  | 0, _, b :: rest =>
    (utf8Lead b).1 ++ utf8ToCodePoints (utf8Lead b).2.1 (utf8Lead b).2.2 rest
  | n + 1, acc, b :: rest =>
    if 0x80 ≤ b ∧ b < 0xC0 then
      if n = 0 then (acc * 0x40 + (b - 0x80)) :: utf8ToCodePoints 0 0 rest
      else utf8ToCodePoints n (acc * 0x40 + (b - 0x80)) rest
    else
      0xFFFD :: ((utf8Lead b).1 ++ utf8ToCodePoints (utf8Lead b).2.1 (utf8Lead b).2.2 rest)

/-- The concatenation of the images of the elements of a list. -/
def concatMap (f : Nat → List Nat) : List Nat → List Nat
  | [] => []
  | x :: rest => f x ++ concatMap f rest

/-- Modelled from the spec: a string codec that converts between UTF-16 text
and UTF-8 bytes, for evaluating the adapters on concrete strings. -/
def utf8Codec : StringCodec where
  toStdString := fun s => concatMap codePointToUtf8 (utf16ToCodePoints none s.utf16)
  fromStdString := fun bytes => ⟨concatMap codePointToUtf16 (utf8ToCodePoints 0 0 bytes)⟩

/-! ## `convert<QString>` -/

/-- The function `convert<QString>::encode`: `Node(rhs.toStdString())`. -/
def convertQString.encode (codec : StringCodec) (rhs : QString) : Node :=
  Node.scalar (codec.toStdString rhs)

/-- The function `convert<QString>::decode`. -/
def convertQString.decode (codec : StringCodec) (node : Node) (rhs : QString) :
    Outcome QString :=
  if !node.IsScalar then
    .returned false rhs
  else
    .returned true (codec.fromStdString node.Scalar)

/-- The specialisation `convert<QString>`; a default `QString` is empty. -/
def convertQString (codec : StringCodec) : Convert QString where
  init := ⟨[]⟩
  encode := convertQString.encode codec
  decode := convertQString.decode codec

/-! ## `convert<QVector<T>>` and `convert<QList<T>>` -/

/-- The loop `foreach (T value, rhs) node.push_back(value);` on a node created
as a sequence: `children` is the child list built so far, and `push_back`
converts the element with `convert<T>::encode` and appends it. -/
def encodeElements {T : Type} (c : Convert T) : List T → List Node → List Node
  | [], children => children
  | value :: rest, children => encodeElements c rest (children ++ [c.encode value])

/-- The loop `while (it != node.end()) { rhs.push_back(it->as<T>()); ++it; }`
followed by `return true`. -/
def decodeElements {T : Type} (c : Convert T) : List Node → List T → Outcome (List T)
  | [], rhs => .returned true rhs
  | it :: rest, rhs =>
    match it.as c with
    | .value t => decodeElements c rest (rhs ++ [t])
    | .raised e => .threw e rhs
    | .diverged => .diverged

/-- The function `convert<QVector<T>>::encode`. -/
def convertQVector.encode {T : Type} (c : Convert T) (rhs : QVector T) : Node :=
  Node.sequence (encodeElements c rhs [])

/-- The function `convert<QVector<T>>::decode`. -/
def convertQVector.decode {T : Type} (c : Convert T) (node : Node) (rhs : QVector T) :
    Outcome (QVector T) :=
  if !node.IsSequence then
    .returned false rhs
  else
    decodeElements c node.elements []

/-- The specialisation `convert<QVector<T>>`. -/
def convertQVector {T : Type} (c : Convert T) : Convert (QVector T) where
  init := []
  encode := convertQVector.encode c
  decode := convertQVector.decode c

/-- The function `convert<QList<T>>::encode`. -/
def convertQList.encode {T : Type} (c : Convert T) (rhs : QList T) : Node :=
  Node.sequence (encodeElements c rhs [])

/-- The function `convert<QList<T>>::decode`. -/
def convertQList.decode {T : Type} (c : Convert T) (node : Node) (rhs : QList T) :
    Outcome (QList T) :=
  if !node.IsSequence then
    .returned false rhs
  else
    decodeElements c node.elements []

/-- The specialisation `convert<QList<T>>`. -/
def convertQList {T : Type} (c : Convert T) : Convert (QList T) where
  init := []
  encode := convertQList.encode c
  decode := convertQList.decode c

/-! ## `convert<QPair<T, U>>` -/

/-- The function `convert<QPair<T,U>>::encode`: two `push_back` calls on a new sequence. -/
def convertQPair.encode {T U : Type} (cT : Convert T) (cU : Convert U) (rhs : QPair T U) :
    Node :=
  Node.sequence (([] ++ [cT.encode rhs.1]) ++ [cU.encode rhs.2])

/-- The function `convert<QPair<T,U>>::decode`: the two shape checks, then the assignment
of `rhs.first`, then the assignment of `rhs.second`. -/
def convertQPair.decode {T U : Type} (cT : Convert T) (cU : Convert U) (node : Node)
    (rhs : QPair T U) : Outcome (QPair T U) :=
  if !node.IsSequence then
    .returned false rhs
  else if node.size != 2 then
    .returned false rhs
  else
    match node.subscriptAs cT 0 with
    | .raised e => .threw e rhs
    | .diverged => .diverged
    | .value first =>
      match node.subscriptAs cU 1 with
      | .raised e => .threw e (first, rhs.2)
      | .diverged => .diverged
      | .value second => .returned true (first, second)

/-- The specialisation `convert<QPair<T,U>>`; a default pair holds two default
members. -/
def convertQPair {T U : Type} (cT : Convert T) (cU : Convert U) : Convert (QPair T U) where
  init := (cT.init, cU.init)
  encode := convertQPair.encode cT cU
  decode := convertQPair.decode cT cU

/-! ## `convert<QMap<Key, Value>>` -/

/-- The loop `while (it != rhs.constEnd()) { node.force_insert(it.key(),
it.value()); ++it; }` on a node created as a map: `force_insert` converts the
key and the value and appends the pair without looking for the key. -/
def encodeEntries {Key Value : Type} (cK : Convert Key) (cV : Convert Value) :
    List (Key × Value) → List (Node × Node) → List (Node × Node)
  | [], entries => entries
  | it :: rest, entries =>
    encodeEntries cK cV rest (entries ++ [(cK.encode it.1, cV.encode it.2)])

/-- The loop `while (it != node.end()) { rhs[it->first.as<Key>()] =
it->second.as<Value>(); ++it; }` followed by `return true`.  The right operand
of the assignment is evaluated before the left one. -/
def decodeEntries {Key Value : Type} [LT Key] [DecidableRel (fun a b : Key => a < b)]
    (cK : Convert Key) (cV : Convert Value) :
    List (Node × Node) → QMap Key Value → Outcome (QMap Key Value)
  | [], rhs => .returned true rhs
  | it :: rest, rhs =>
    match it.2.as cV with
    | .raised e => .threw e rhs
    | .diverged => .diverged
    | .value value =>
      match it.1.as cK with
      | .raised e => .threw e rhs
      | .diverged => .diverged
      | .value key => decodeEntries cK cV rest (QMap.assign rhs key value)

/-- The function `convert<QMap<Key,Value>>::encode`. -/
def convertQMap.encode {Key Value : Type} (cK : Convert Key) (cV : Convert Value)
    (rhs : QMap Key Value) : Node :=
  Node.map (encodeEntries cK cV rhs [])

/-- The function `convert<QMap<Key,Value>>::decode`. -/
def convertQMap.decode {Key Value : Type} [LT Key] [DecidableRel (fun a b : Key => a < b)]
    (cK : Convert Key) (cV : Convert Value) (node : Node) (rhs : QMap Key Value) :
    Outcome (QMap Key Value) :=
  if !node.IsMap then
    .returned false rhs
  else
    decodeEntries cK cV node.pairs []

/-- The specialisation `convert<QMap<Key,Value>>`. -/
def convertQMap {Key Value : Type} [LT Key] [DecidableRel (fun a b : Key => a < b)]
    (cK : Convert Key) (cV : Convert Value) : Convert (QMap Key Value) where
  init := []
  encode := convertQMap.encode cK cV
  decode := convertQMap.decode cK cV

/-! ## `convert<QVariant>` -/

/-- A `QVariant`, by the type it holds: nothing (`invalid`, the state after
`clear()`), a `bool`, an `int` (a number from `-2^31` to `2^31 - 1`), a
`QString`, a `QVariantList`, a `QVariantMap` (entries in ascending key order),
or a value of any other type, named by its type id. -/
inductive QVariant where
  | invalid : QVariant
  | bool (b : Bool) : QVariant
  | int (i : Int) : QVariant
  | string (s : QString) : QVariant
  | list (xs : List QVariant) : QVariant
  | map (m : List (QString × QVariant)) : QVariant
  | other (typeId : Nat) : QVariant

/-- Modelled from the spec: the conversion `Node(bool)` of the YAML library,
a scalar with the canonical text `true` or `false`. -/
def encodeBool (b : Bool) : Node :=
  Node.scalar (if b then [0x74, 0x72, 0x75, 0x65] else [0x66, 0x61, 0x6C, 0x73, 0x65])

/-- The decimal digits of `n` as ASCII bytes, most significant first; `fuel`
bounds the number of digits. -/
def decimalDigits : Nat → Nat → List Nat
  | 0, _ => []
  | fuel + 1, n =>
    if n < 10 then [0x30 + n] else decimalDigits fuel (n / 10) ++ [0x30 + n % 10]

/-- The base-10 text of an integer: a minus sign for a negative number, then
the digits of its absolute value. -/
def decimalText (i : Int) : StdString :=
  if i < 0 then 0x2D :: decimalDigits (i.natAbs + 1) i.natAbs
  else decimalDigits (i.natAbs + 1) i.natAbs

/-- Modelled from the spec: the conversion `Node(int)` of the YAML library,
a scalar with the base-10 text of the integer. -/
def encodeInt (i : Int) : Node :=
  Node.scalar (decimalText i)

/-- The bytes a reader of the C string `s.c_str()` sees: those before the
first zero byte. -/
def c_str (s : StdString) : List Nat :=
  s.takeWhile (fun b => b != 0)

/-- The conversion of a `const char*` to a `QVariant`: a variant holding the
`QString` read from the C string as UTF-8. -/
def QVariant.fromCString (codec : StringCodec) (chars : List Nat) : QVariant :=
  QVariant.string (codec.fromStdString chars)

mutual
/-- The function `convert<QVariant>::encode`: the switch on `rhs.type()`, each
case converting the held value with the `convert` of its type, and `Node()` for
every type without a case. -/
def convertQVariant.encode (codec : StringCodec) : QVariant → Node
  | .bool b => encodeBool b
  | .int i => encodeInt i
  | .string s => convertQString.encode codec s
  | .list xs => Node.sequence (convertQVariant.encodeList codec xs [])
  | .map m => Node.map (convertQVariant.encodeMap codec m [])
  | _ => Node.null
/-- The loop of `convert<QList<QVariant>>::encode`, as `encodeElements`. -/
def convertQVariant.encodeList (codec : StringCodec) : List QVariant → List Node → List Node
  | [], children => children
  | value :: rest, children =>
    convertQVariant.encodeList codec rest (children ++ [convertQVariant.encode codec value])
/-- The loop of `convert<QMap<QString, QVariant>>::encode`, as
`encodeEntries`. -/
def convertQVariant.encodeMap (codec : StringCodec) :
    List (QString × QVariant) → List (Node × Node) → List (Node × Node)
  | [], entries => entries
  | it :: rest, entries =>
    convertQVariant.encodeMap codec rest
      (entries ++ [(convertQString.encode codec it.1, convertQVariant.encode codec it.2)])
end

/-- The function `convert<QVariant>::decode`.  The first argument bounds the
depth of nested calls of this function: with none left the call has not
returned.  A nested call happens under `as<QMap<QString, QVariant>>()` and
`as<QList<QVariant>>()`, on the children, and under `as<QVariant>()` in the
last branch, on the same node. -/
def convertQVariant.decode (codec : StringCodec) : Nat → Node → QVariant → Outcome QVariant
  | 0, _, _ => .diverged
  | depth + 1, node, rhs =>
    if node.IsScalar then
      .returned true (QVariant.fromCString codec (c_str node.Scalar))
    else if node.IsMap then
      match node.as (convertQMap (convertQString codec)
          { init := QVariant.invalid
            encode := convertQVariant.encode codec
            decode := fun n r => convertQVariant.decode codec depth n r }) with
      | .value m => .returned true (QVariant.map m)
      | .raised e => .threw e rhs
      | .diverged => .diverged
    else if node.IsSequence then
      match node.as (convertQList
          { init := QVariant.invalid
            encode := convertQVariant.encode codec
            decode := fun n r => convertQVariant.decode codec depth n r }) with
      | .value xs => .returned true (QVariant.list xs)
      | .raised e => .threw e rhs
      | .diverged => .diverged
    else if node.IsNull then
      .returned true QVariant.invalid
    else if node.IsDefined then
      .returned true QVariant.invalid
    else
      match node.as
          { init := QVariant.invalid
            encode := convertQVariant.encode codec
            decode := fun n r => convertQVariant.decode codec depth n r } with
      | .value v => .returned true v
      | .raised e => .threw e rhs
      | .diverged => .diverged

/-- The specialisation `convert<QVariant>` with calls of `decode` nested at
most `depth` deep; a default `QVariant` is invalid. -/
def convertQVariant (codec : StringCodec) (depth : Nat) : Convert QVariant where
  init := QVariant.invalid
  encode := convertQVariant.encode codec
  decode := convertQVariant.decode codec depth

/-! ## `variantTo` -/

/-- The value of a run of ASCII decimal digits read after `acc`; `none` when a
character is not a digit. -/
def digitsValue : List Nat → Nat → Option Nat
  | [], acc => some acc
  | c :: rest, acc =>
    if 0x30 ≤ c ∧ c ≤ 0x39 then digitsValue rest (acc * 10 + (c - 0x30)) else none

/-- The number a text of decimal digits with an optional sign denotes, when
the text has that form. -/
def parseDecimal : List Nat → Option Int
  | [] => none
  | c :: rest =>
    if c = 0x2D then
      if rest = [] then none else Option.map (fun n : Nat => - Int.ofNat n) (digitsValue rest 0)
    else if c = 0x2B then
      if rest = [] then none else Option.map (fun n : Nat => Int.ofNat n) (digitsValue rest 0)
    else Option.map (fun n : Nat => Int.ofNat n) (digitsValue (c :: rest) 0)

/-- Modelled from the spec: the conversion of a text to a 64-bit integer by the
framework (`QString::toLongLong`): the number the text denotes in base 10 when
it fits 64 bits, and `0` for a text that denotes no such number.  The model
reads a text made of an optional sign and decimal digits, the form in which
the adapters write a number; any other text denotes no number. -/
def QString.toLongLong (s : QString) : Int :=
  match parseDecimal s.utf16 with
  | some i => if -9223372036854775808 ≤ i ∧ i ≤ 9223372036854775807 then i else 0
  | none => 0

/-- The narrowing of a 64-bit integer to an `int`: the value modulo `2^32` in
the range from `-2^31` to `2^31 - 1`. -/
def narrowToInt (x : Int) : Int :=
  (x + 2147483648) % 4294967296 - 2147483648

/-- The text with the ASCII capital letters replaced by small ones. -/
def asciiLower (cs : List Nat) : List Nat :=
  cs.map (fun c => if 0x41 ≤ c ∧ c ≤ 0x5A then c + 0x20 else c)

/-- Modelled from the spec: the typed accessor `QVariant::toInt`.  It returns
the held `int`, `0` or `1` for a held `bool`, the 64-bit number a held text
denotes narrowed to an `int`, and `0` for a variant that holds no number. -/
def QVariant.toInt : QVariant → Int
  | .int i => i
  | .bool b => if b then 1 else 0
  | .string s => narrowToInt s.toLongLong
  | _ => 0

/-- Modelled from the spec: the typed accessor `QVariant::toBool`.  It returns
the held `bool`, whether a held `int` is not zero, and for a held text whether
its lower-case content is none of the empty text, `0` and `false`. -/
def QVariant.toBool : QVariant → Bool
  | .bool b => b
  | .int i => i != 0
  | .string s =>
    !(asciiLower s.utf16 = [] ∨ asciiLower s.utf16 = [0x30]
      ∨ asciiLower s.utf16 = [0x66, 0x61, 0x6C, 0x73, 0x65])
  | _ => false

/-- The specialisation `variantTo<int>`. -/
def variantTo.int (var : QVariant) : Int :=
  var.toInt

/-- The specialisation `variantTo<bool>`. -/
def variantTo.bool (var : QVariant) : Bool :=
  var.toBool

/-! ## Properties of variants used in the statements -/

mutual
/-- The nesting depth of the containers of a variant. -/
def QVariant.depth : QVariant → Nat
  | .list xs => QVariant.depthList xs + 1
  | .map m => QVariant.depthMap m + 1
  | _ => 0
/-- The greatest depth among the elements of a list. -/
def QVariant.depthList : List QVariant → Nat
  | [] => 0
  | x :: rest => max x.depth (QVariant.depthList rest)
/-- The greatest depth among the values of a map. -/
def QVariant.depthMap : List (QString × QVariant) → Nat
  | [] => 0
  | e :: rest => max e.2.depth (QVariant.depthMap rest)
end

mutual
/-- The variant is built only from the string, list, map and invalid cases. -/
def QVariant.inStringFragment : QVariant → Bool
  | .invalid => true
  | .string _ => true
  | .list xs => QVariant.inStringFragmentList xs
  | .map m => QVariant.inStringFragmentMap m
  | _ => false
/-- Every element of the list is in the string fragment. -/
def QVariant.inStringFragmentList : List QVariant → Bool
  | [] => true
  | x :: rest => x.inStringFragment && QVariant.inStringFragmentList rest
/-- Every value of the map is in the string fragment. -/
def QVariant.inStringFragmentMap : List (QString × QVariant) → Bool
  | [] => true
  | e :: rest => e.2.inStringFragment && QVariant.inStringFragmentMap rest
end

mutual
/-- The texts of the variant survive the passage through a node: every held
string is given back by the codec from the part of its UTF-8 bytes before the
first zero byte, every map key is given back by the codec from its UTF-8
bytes, and every map has its keys in strictly ascending order. -/
def QVariant.textSurvives (codec : StringCodec) : QVariant → Bool
  | .string s => decide (codec.fromStdString (c_str (codec.toStdString s)) = s)
  | .list xs => QVariant.textSurvivesList codec xs
  | .map m => decide (QMap.WellFormed m) && QVariant.textSurvivesMap codec m
  | _ => true
/-- The texts of every element of the list survive. -/
def QVariant.textSurvivesList (codec : StringCodec) : List QVariant → Bool
  | [] => true
  | x :: rest => x.textSurvives codec && QVariant.textSurvivesList codec rest
/-- The key and the texts of the value of every entry survive. -/
def QVariant.textSurvivesMap (codec : StringCodec) : List (QString × QVariant) → Bool
  | [] => true
  | e :: rest =>
    decide (codec.fromStdString (codec.toStdString e.1) = e.1) && e.2.textSurvives codec
      && QVariant.textSurvivesMap codec rest
end

mutual
/-- The variant with every `bool` and `int` replaced by the string of its
text, and every value of another type by the invalid variant. -/
def QVariant.textForm : QVariant → QVariant
  | .bool b => .string ⟨if b then [0x74, 0x72, 0x75, 0x65] else [0x66, 0x61, 0x6C, 0x73, 0x65]⟩
  | .int i => .string ⟨decimalText i⟩
  | .string s => .string s
  | .list xs => .list (QVariant.textFormList xs)
  | .map m => .map (QVariant.textFormMap m)
  | _ => .invalid
/-- The text forms of the elements of a list. -/
def QVariant.textFormList : List QVariant → List QVariant
  | [] => []
  | x :: rest => x.textForm :: QVariant.textFormList rest
/-- The entries of a map with the text forms of their values. -/
def QVariant.textFormMap : List (QString × QVariant) → List (QString × QVariant)
  | [] => []
  | e :: rest => (e.1, e.2.textForm) :: QVariant.textFormMap rest
end

/-- The codec maps a text of ASCII characters to the same numbers as bytes and
as code units, in both directions. -/
def StringCodec.AsciiTransparent (codec : StringCodec) : Prop :=
  ∀ bytes : List Nat, (∀ b ∈ bytes, b < 0x80) →
    codec.fromStdString bytes = ⟨bytes⟩ ∧ codec.toStdString ⟨bytes⟩ = bytes

/-- The adapter `c` round-trips on `x`: decoding the encoding of `x` into a
default-constructed value returns `true` and leaves `x`. -/
def Convert.RoundTrips {T : Type} (c : Convert T) (x : T) : Prop :=
  c.decode (c.encode x) c.init = .returned true x

instance Convert.decidableRoundTrips {T : Type} [DecidableEq T] (c : Convert T) (x : T) :
    Decidable (c.RoundTrips x) :=
  inferInstanceAs (Decidable (c.decode (c.encode x) c.init = .returned true x))

/-! ## Auxiliary facts -/

theorem as_of_roundTrips {T : Type} (c : Convert T) (x : T) (h : c.RoundTrips x) :
    (c.encode x).as c = .value x := by
  unfold Convert.RoundTrips at h
  simp [Node.as, h]

theorem encodeElements_eq {T : Type} (c : Convert T) (xs : List T) (children : List Node) :
    encodeElements c xs children = children ++ xs.map c.encode := by
  induction xs generalizing children with
  | nil => simp [encodeElements]
  | cons x rest ih => simp [encodeElements, ih]

theorem decodeElements_encoded {T : Type} (c : Convert T) (xs : List T)
    (h : ∀ x ∈ xs, c.RoundTrips x) (rhs : List T) :
    decodeElements c (xs.map c.encode) rhs = .returned true (rhs ++ xs) := by
  induction xs generalizing rhs with
  | nil => simp [decodeElements]
  | cons x rest ih =>
    have hx : (c.encode x).as c = .value x := as_of_roundTrips c x (h x (by simp))
    have hrest : ∀ y ∈ rest, c.RoundTrips y := fun y hy => h y (by simp [hy])
    simp [decodeElements, hx, ih hrest]

theorem encodeEntries_eq {Key Value : Type} (cK : Convert Key) (cV : Convert Value)
    (m : List (Key × Value)) (entries : List (Node × Node)) :
    encodeEntries cK cV m entries
      = entries ++ m.map (fun it => (cK.encode it.1, cV.encode it.2)) := by
  induction m generalizing entries with
  | nil => simp [encodeEntries]
  | cons it rest ih => simp [encodeEntries, ih]

theorem QMap.mem_assign {Key Value : Type} [LinearOrder Key] (m : QMap Key Value)
    (key : Key) (value : Value) (e : Key × Value) (he : e ∈ QMap.assign m key value) :
    e.1 = key ∨ e ∈ m := by
  induction m with
  | nil =>
    simp only [QMap.assign, List.mem_singleton] at he
    exact Or.inl (by rw [he])
  | cons head rest ih =>
    obtain ⟨k, v⟩ := head
    simp only [QMap.assign] at he
    split_ifs at he with h1 h2
    · rcases List.mem_cons.mp he with rfl | h
      · exact Or.inl rfl
      · exact Or.inr h
    · rcases List.mem_cons.mp he with rfl | h
      · exact Or.inr (List.mem_cons_self _ _)
      · rcases ih h with h3 | h3
        · exact Or.inl h3
        · exact Or.inr (List.mem_cons_of_mem _ h3)
    · rcases List.mem_cons.mp he with rfl | h
      · exact Or.inl (le_antisymm (not_lt.mp h1) (not_lt.mp h2))
      · exact Or.inr (List.mem_cons_of_mem _ h)

theorem QMap.assign_wellFormed {Key Value : Type} [LinearOrder Key] (m : QMap Key Value)
    (hm : m.WellFormed) (key : Key) (value : Value) :
    (QMap.assign m key value).WellFormed := by
  induction m with
  | nil => simp [QMap.assign, QMap.WellFormed]
  | cons head rest ih =>
    obtain ⟨k, v⟩ := head
    unfold QMap.WellFormed at hm ih ⊢
    rw [List.pairwise_cons] at hm
    obtain ⟨hhead, hrest⟩ := hm
    simp only [QMap.assign]
    split_ifs with h1 h2
    · refine List.pairwise_cons.mpr ⟨?_, List.pairwise_cons.mpr ⟨hhead, hrest⟩⟩
      intro b hb
      rcases List.mem_cons.mp hb with rfl | h
      · exact h1
      · exact lt_trans h1 (hhead b h)
    · refine List.pairwise_cons.mpr ⟨?_, ih hrest⟩
      intro b hb
      rcases QMap.mem_assign rest key value b hb with h | h
      · rw [h]; exact h2
      · exact hhead b h
    · exact List.pairwise_cons.mpr ⟨hhead, hrest⟩

theorem QMap.keys_assign {Key Value : Type} [LinearOrder Key] (m : QMap Key Value)
    (key : Key) (value : Value) (k : Key) :
    k ∈ QMap.keys (QMap.assign m key value) ↔ k = key ∨ k ∈ QMap.keys m := by
  induction m with
  | nil => simp [QMap.assign, QMap.keys]
  | cons head rest ih =>
    obtain ⟨k0, v0⟩ := head
    simp only [QMap.assign]
    split_ifs with h1 h2
    · simp [QMap.keys]
    · have ih2 : k ∈ List.map Prod.fst (QMap.assign rest key value)
          ↔ k = key ∨ k ∈ List.map Prod.fst rest := ih
      simp only [QMap.keys, List.map_cons, List.mem_cons, ih2]
      tauto
    · have hk : k0 = key := le_antisymm (not_lt.mp h1) (not_lt.mp h2)
      simp only [QMap.keys, List.map_cons, List.mem_cons, hk]
      tauto

theorem QMap.find_assign {Key Value : Type} [LinearOrder Key] (m : QMap Key Value)
    (key : Key) (value : Value) (k : Key) :
    QMap.find (QMap.assign m key value) k
      = if key = k then some value else QMap.find m k := by
  induction m with
  | nil => simp [QMap.assign, QMap.find]
  | cons head rest ih =>
    obtain ⟨k0, v0⟩ := head
    simp only [QMap.assign]
    split_ifs with h1 h3 h2 h3 h3
    · simp [QMap.find, h3]
    · simp [QMap.find, h3]
    · subst h3
      have hne : ¬ k0 = key := ne_of_lt h2
      simp [QMap.find, hne, ih]
    · simp [QMap.find, ih, h3]
    · have hk : k0 = key := le_antisymm (not_lt.mp h1) (not_lt.mp h2)
      simp [QMap.find, hk, h3]
    · have hk : k0 = key := le_antisymm (not_lt.mp h1) (not_lt.mp h2)
      simp [QMap.find, hk, h3]

theorem QMap.assign_last {Key Value : Type} [LinearOrder Key] (m : QMap Key Value)
    (key : Key) (value : Value) (h : ∀ e ∈ m, e.1 < key) :
    QMap.assign m key value = m ++ [(key, value)] := by
  induction m with
  | nil => simp [QMap.assign]
  | cons head rest ih =>
    obtain ⟨k0, v0⟩ := head
    have h0 : k0 < key := h (k0, v0) (List.mem_cons_self _ _)
    have hrest : ∀ e ∈ rest, e.1 < key := fun e he => h e (List.mem_cons_of_mem _ he)
    simp [QMap.assign, not_lt_of_lt h0, h0, ih hrest]

/-- The map left by the assignments `rhs[k] = v` for the pairs of `kvs`, in
order. -/
theorem decodeEntries_eq_foldl {Key Value : Type} [LinearOrder Key] (cK : Convert Key)
    (cV : Convert Value) (entries : List (Node × Node)) (kvs : List (Key × Value))
    (h : List.Forall₂
      (fun e kv => e.1.as cK = Result.value kv.1 ∧ e.2.as cV = Result.value kv.2) entries kvs)
    (rhs : QMap Key Value) :
    decodeEntries cK cV entries rhs
      = Outcome.returned true (kvs.foldl (fun m kv => QMap.assign m kv.1 kv.2) rhs) := by
  induction h generalizing rhs with
  | nil => simp [decodeEntries]
  | cons hhead _ ih =>
    obtain ⟨h1, h2⟩ := hhead
    simp [decodeEntries, h1, h2, ih]

theorem foldl_assign_wellFormed {Key Value : Type} [LinearOrder Key] (kvs : List (Key × Value))
    (rhs : QMap Key Value) (h : rhs.WellFormed) :
    QMap.WellFormed (kvs.foldl (fun m kv => QMap.assign m kv.1 kv.2) rhs) := by
  induction kvs generalizing rhs with
  | nil => simpa using h
  | cons kv rest ih =>
    simp only [List.foldl_cons]
    exact ih _ (QMap.assign_wellFormed rhs h kv.1 kv.2)

theorem foldl_assign_keys {Key Value : Type} [LinearOrder Key] (kvs : List (Key × Value))
    (rhs : QMap Key Value) (k : Key) :
    k ∈ QMap.keys (kvs.foldl (fun m kv => QMap.assign m kv.1 kv.2) rhs)
      ↔ k ∈ kvs.map Prod.fst ∨ k ∈ QMap.keys rhs := by
  induction kvs generalizing rhs with
  | nil => simp
  | cons kv rest ih =>
    simp only [List.foldl_cons, ih, QMap.keys_assign, List.map_cons, List.mem_cons]
    tauto

theorem foldl_assign_find_of_not_mem {Key Value : Type} [LinearOrder Key]
    (kvs : List (Key × Value)) (rhs : QMap Key Value) (k : Key)
    (h : k ∉ kvs.map Prod.fst) :
    QMap.find (kvs.foldl (fun m kv => QMap.assign m kv.1 kv.2) rhs) k = QMap.find rhs k := by
  induction kvs generalizing rhs with
  | nil => simp
  | cons kv rest ih =>
    simp only [List.map_cons, List.mem_cons, not_or] at h
    have hne : ¬ kv.1 = k := fun hk => h.1 hk.symm
    simp only [List.foldl_cons]
    rw [ih _ h.2, QMap.find_assign, if_neg hne]

theorem foldl_assign_find_last {Key Value : Type} [LinearOrder Key]
    (pre post : List (Key × Value)) (rhs : QMap Key Value) (k : Key) (v : Value)
    (h : k ∉ post.map Prod.fst) :
    QMap.find ((pre ++ (k, v) :: post).foldl (fun m kv => QMap.assign m kv.1 kv.2) rhs) k
      = some v := by
  rw [List.foldl_append, List.foldl_cons, foldl_assign_find_of_not_mem post _ k h,
    QMap.find_assign]
  simp

theorem foldl_assign_sorted {Key Value : Type} [LinearOrder Key] (rest acc : List (Key × Value))
    (h : QMap.WellFormed (acc ++ rest)) :
    rest.foldl (fun m kv => QMap.assign m kv.1 kv.2) acc = acc ++ rest := by
  induction rest generalizing acc with
  | nil => simp
  | cons kv rest ih =>
    have hlast : ∀ e ∈ acc, e.1 < kv.1 := by
      intro e he
      unfold QMap.WellFormed at h
      rw [List.pairwise_append] at h
      exact h.2.2 e he kv (List.mem_cons_self _ _)
    have h2 : QMap.WellFormed ((acc ++ [kv]) ++ rest) := by simpa using h
    simp only [List.foldl_cons]
    rw [QMap.assign_last acc kv.1 kv.2 hlast, ih _ h2]
    simp

theorem QMap.keys_nodup {Key Value : Type} [LinearOrder Key] (m : QMap Key Value)
    (h : m.WellFormed) : (QMap.keys m).Nodup := by
  unfold QMap.WellFormed at h
  unfold QMap.keys List.Nodup
  rw [List.pairwise_map]
  exact h.imp (fun hab => ne_of_lt hab)

theorem forall₂_encoded {Key Value : Type} (cK : Convert Key) (cV : Convert Value)
    (m : List (Key × Value)) (hK : ∀ e ∈ m, cK.RoundTrips e.1)
    (hV : ∀ e ∈ m, cV.RoundTrips e.2) :
    List.Forall₂
      (fun e kv => e.1.as cK = Result.value kv.1 ∧ e.2.as cV = Result.value kv.2)
      (m.map (fun it => (cK.encode it.1, cV.encode it.2))) m := by
  induction m with
  | nil => exact List.Forall₂.nil
  | cons it rest ih =>
    refine List.Forall₂.cons ⟨?_, ?_⟩ (ih ?_ ?_)
    · exact as_of_roundTrips cK it.1 (hK it (List.mem_cons_self _ _))
    · exact as_of_roundTrips cV it.2 (hV it (List.mem_cons_self _ _))
    · exact fun e he => hK e (List.mem_cons_of_mem _ he)
    · exact fun e he => hV e (List.mem_cons_of_mem _ he)

theorem decodeElements_raises {T : Type} (c : Convert T) (children : List Node)
    (hno : ∀ ch ∈ children, ch.as c ≠ Result.diverged)
    (hfail : ∃ ch ∈ children, ∃ e, ch.as c = Result.raised e) (rhs : List T) :
    ∃ e out, decodeElements c children rhs = Outcome.threw e out := by
  induction children generalizing rhs with
  | nil => simp at hfail
  | cons it rest ih =>
    have hit : it.as c ≠ Result.diverged := hno it (List.mem_cons_self _ _)
    cases hres : it.as c with
    | value t =>
      have hrest : ∃ ch ∈ rest, ∃ e, ch.as c = Result.raised e := by
        obtain ⟨ch, hch, e, he⟩ := hfail
        rcases List.mem_cons.mp hch with rfl | hmem
        · rw [hres] at he; cases he
        · exact ⟨ch, hmem, e, he⟩
      obtain ⟨e, out, h⟩ :=
        ih (fun ch hch => hno ch (List.mem_cons_of_mem _ hch)) hrest (rhs ++ [t])
      exact ⟨e, out, by simp [decodeElements, hres, h]⟩
    | raised e => exact ⟨e, rhs, by simp [decodeElements, hres]⟩
    | diverged => exact absurd hres hit

theorem decodeEntries_raises {Key Value : Type} [LinearOrder Key] (cK : Convert Key)
    (cV : Convert Value) (entries : List (Node × Node))
    (hno : ∀ it ∈ entries, it.1.as cK ≠ Result.diverged ∧ it.2.as cV ≠ Result.diverged)
    (hfail : ∃ it ∈ entries,
      (∃ e, it.1.as cK = Result.raised e) ∨ (∃ e, it.2.as cV = Result.raised e))
    (rhs : QMap Key Value) :
    ∃ e out, decodeEntries cK cV entries rhs = Outcome.threw e out := by
  induction entries generalizing rhs with
  | nil => simp at hfail
  | cons it rest ih =>
    obtain ⟨hk, hv⟩ := hno it (List.mem_cons_self _ _)
    cases hresV : it.2.as cV with
    | raised e => exact ⟨e, rhs, by simp [decodeEntries, hresV]⟩
    | diverged => exact absurd hresV hv
    | value value =>
      cases hresK : it.1.as cK with
      | raised e => exact ⟨e, rhs, by simp [decodeEntries, hresV, hresK]⟩
      | diverged => exact absurd hresK hk
      | value key =>
        have hrest : ∃ it2 ∈ rest,
            (∃ e, it2.1.as cK = Result.raised e) ∨ (∃ e, it2.2.as cV = Result.raised e) := by
          obtain ⟨it2, hmem, hor⟩ := hfail
          rcases List.mem_cons.mp hmem with rfl | hmem2
          · rcases hor with ⟨e, he⟩ | ⟨e, he⟩
            · rw [hresK] at he; cases he
            · rw [hresV] at he; cases he
          · exact ⟨it2, hmem2, hor⟩
        obtain ⟨e, out, h⟩ :=
          ih (fun it2 hmem => hno it2 (List.mem_cons_of_mem _ hmem)) hrest
            (QMap.assign rhs key value)
        exact ⟨e, out, by simp [decodeEntries, hresV, hresK, h]⟩

/-! ## Auxiliary facts about variants -/

theorem c_str_of_nonzero (l : List Nat) (h : ∀ b ∈ l, b ≠ 0) : c_str l = l := by
  unfold c_str
  rw [List.takeWhile_eq_self_iff]
  intro b hb
  simpa using h b hb

theorem decimalDigits_digit (fuel n : Nat) :
    ∀ b ∈ decimalDigits fuel n, 0x30 ≤ b ∧ b ≤ 0x39 := by
  induction fuel generalizing n with
  | zero => simp [decimalDigits]
  | succ fuel ih =>
    intro b hb
    simp only [decimalDigits] at hb
    split_ifs at hb with h
    · simp only [List.mem_singleton] at hb
      omega
    · rcases List.mem_append.mp hb with h1 | h1
      · exact ih _ b h1
      · simp only [List.mem_singleton] at h1
        omega

theorem decimalDigits_ne_nil (fuel n : Nat) : decimalDigits (fuel + 1) n ≠ [] := by
  simp only [decimalDigits]
  split_ifs <;> simp

theorem digitsValue_append (l : List Nat) (d acc : Nat) (hd : 0x30 ≤ d ∧ d ≤ 0x39) :
    digitsValue (l ++ [d]) acc
      = (digitsValue l acc).map (fun a => a * 10 + (d - 0x30)) := by
  induction l generalizing acc with
  | nil => simp [digitsValue, hd]
  | cons c rest ih =>
    simp only [List.cons_append, digitsValue]
    split_ifs
    · exact ih _
    · rfl

theorem digitsValue_decimalDigits (fuel n : Nat) (h : n < fuel) :
    digitsValue (decimalDigits fuel n) 0 = some n := by
  induction fuel generalizing n with
  | zero => omega
  | succ fuel ih =>
    simp only [decimalDigits]
    split_ifs with h10
    · have h1 : 0x30 ≤ 0x30 + n ∧ 0x30 + n ≤ 0x39 := by omega
      simp [digitsValue, h1]
    · have hd : 0x30 ≤ 0x30 + n % 10 ∧ 0x30 + n % 10 ≤ 0x39 := by omega
      rw [digitsValue_append _ _ _ hd, ih (n / 10) (by omega)]
      simp only [Option.map_some', Option.some.injEq]
      omega

theorem decimalText_ascii (i : Int) : ∀ b ∈ decimalText i, b ≠ 0 ∧ b < 0x80 := by
  intro b hb
  unfold decimalText at hb
  split_ifs at hb
  · rcases List.mem_cons.mp hb with h | h
    · omega
    · have := decimalDigits_digit _ _ b h
      omega
  · have := decimalDigits_digit _ _ b hb
    omega

theorem parseDecimal_decimalText (i : Int) : parseDecimal (decimalText i) = some i := by
  have hval := digitsValue_decimalDigits (i.natAbs + 1) i.natAbs (by omega)
  have hne := decimalDigits_ne_nil i.natAbs i.natAbs
  unfold decimalText
  split_ifs with hneg
  · have habs : (i.natAbs : Int) = -i := Int.ofNat_natAbs_of_nonpos (le_of_lt hneg)
    simp only [parseDecimal, if_true, hne, if_false, hval, Option.map_some', Option.some.injEq,
      Int.ofNat_eq_coe]
    rw [habs, neg_neg]
  · cases hds : decimalDigits (i.natAbs + 1) i.natAbs with
    | nil => exact absurd hds hne
    | cons c rest =>
      have hc := decimalDigits_digit (i.natAbs + 1) i.natAbs c (by rw [hds]; simp)
      have h1 : ¬ c = 0x2D := by omega
      have h2 : ¬ c = 0x2B := by omega
      have habs : (i.natAbs : Int) = i := Int.natAbs_of_nonneg (not_lt.mp hneg)
      rw [hds] at hval
      simp only [parseDecimal, h1, h2, if_false, hval, Option.map_some', Option.some.injEq,
        Int.ofNat_eq_coe]
      exact habs

theorem toInt_decimalText (i : Int) (hlo : -2147483648 ≤ i) (hhi : i ≤ 2147483647) :
    QVariant.toInt (QVariant.string ⟨decimalText i⟩) = i := by
  have h64 : -9223372036854775808 ≤ i ∧ i ≤ 9223372036854775807 := by omega
  simp only [QVariant.toInt, QString.toLongLong, parseDecimal_decimalText, h64, and_self,
    if_true, narrowToInt]
  omega

theorem utf8ToCodePoints_ascii (bytes : List Nat) (h : ∀ b ∈ bytes, b < 0x80) :
    utf8ToCodePoints 0 0 bytes = bytes := by
  induction bytes with
  | nil => rfl
  | cons b rest ih =>
    have hb : b < 0x80 := h b (List.mem_cons_self _ _)
    have hlead : utf8Lead b = ([b], 0, 0) := by simp [utf8Lead, hb]
    simp only [utf8ToCodePoints, hlead, List.singleton_append]
    rw [ih (fun c hc => h c (List.mem_cons_of_mem _ hc))]

theorem utf16ToCodePoints_ascii (units : List Nat) (h : ∀ u ∈ units, u < 0x80) :
    utf16ToCodePoints none units = units := by
  induction units with
  | nil => rfl
  | cons u rest ih =>
    have hu : u < 0x80 := h u (List.mem_cons_self _ _)
    have h1 : ¬ (0xD800 ≤ u ∧ u < 0xDC00) := by omega
    have h2 : ¬ (0xDC00 ≤ u ∧ u < 0xE000) := by omega
    simp only [utf16ToCodePoints, h1, h2, if_false]
    rw [ih (fun c hc => h c (List.mem_cons_of_mem _ hc))]

theorem concatMap_codePointToUtf16_ascii (cps : List Nat) (h : ∀ c ∈ cps, c < 0x80) :
    concatMap codePointToUtf16 cps = cps := by
  induction cps with
  | nil => rfl
  | cons c rest ih =>
    have hc : c < 0x10000 := by
      have := h c (List.mem_cons_self _ _)
      omega
    simp only [concatMap, codePointToUtf16, hc, if_true, List.singleton_append]
    rw [ih (fun d hd => h d (List.mem_cons_of_mem _ hd))]

theorem concatMap_codePointToUtf8_ascii (cps : List Nat) (h : ∀ c ∈ cps, c < 0x80) :
    concatMap codePointToUtf8 cps = cps := by
  induction cps with
  | nil => rfl
  | cons c rest ih =>
    have hc : c < 0x80 := h c (List.mem_cons_self _ _)
    simp only [concatMap, codePointToUtf8, hc, if_true, List.singleton_append]
    rw [ih (fun d hd => h d (List.mem_cons_of_mem _ hd))]

theorem utf8Codec_asciiTransparent : utf8Codec.AsciiTransparent := by
  intro bytes h
  constructor
  · simp only [utf8Codec]
    rw [utf8ToCodePoints_ascii bytes h, concatMap_codePointToUtf16_ascii bytes h]
  · simp only [utf8Codec]
    rw [utf16ToCodePoints_ascii bytes h, concatMap_codePointToUtf8_ascii bytes h]

theorem convertQVariant.encodeList_eq (codec : StringCodec) (xs : List QVariant)
    (children : List Node) :
    convertQVariant.encodeList codec xs children
      = children ++ xs.map (convertQVariant.encode codec) := by
  induction xs generalizing children with
  | nil => simp [convertQVariant.encodeList]
  | cons x rest ih => simp [convertQVariant.encodeList, ih]

theorem convertQVariant.encodeMap_eq (codec : StringCodec) (m : List (QString × QVariant))
    (entries : List (Node × Node)) :
    convertQVariant.encodeMap codec m entries
      = entries ++ m.map (fun it =>
          (convertQString.encode codec it.1, convertQVariant.encode codec it.2)) := by
  induction m generalizing entries with
  | nil => simp [convertQVariant.encodeMap]
  | cons it rest ih => simp [convertQVariant.encodeMap, ih]

theorem convertQVariant.decode_scalar (codec : StringCodec) (depth : Nat) (payload : StdString)
    (rhs : QVariant) :
    convertQVariant.decode codec (depth + 1) (Node.scalar payload) rhs
      = Outcome.returned true (QVariant.string (codec.fromStdString (c_str payload))) :=
  rfl

theorem convertQVariant.decode_null (codec : StringCodec) (depth : Nat) (rhs : QVariant) :
    convertQVariant.decode codec (depth + 1) Node.null rhs
      = Outcome.returned true QVariant.invalid :=
  rfl

theorem convertQVariant.decode_sequence (codec : StringCodec) (depth : Nat)
    (children : List Node) (rhs : QVariant) :
    convertQVariant.decode codec (depth + 1) (Node.sequence children) rhs
      = match decodeElements (convertQVariant codec depth) children [] with
        | .returned true xs => Outcome.returned true (QVariant.list xs)
        | .returned false _ => Outcome.threw Exception.BadConversion rhs
        | .threw e _ => Outcome.threw e rhs
        | .diverged => Outcome.diverged := by
  have h : convertQVariant.decode codec (depth + 1) (Node.sequence children) rhs
      = match (Node.sequence children).as (convertQList (convertQVariant codec depth)) with
        | .value xs => Outcome.returned true (QVariant.list xs)
        | .raised e => Outcome.threw e rhs
        | .diverged => Outcome.diverged := rfl
  rw [h]
  simp only [Node.as, convertQList, convertQList.decode, Node.IsSequence, Node.elements,
    Bool.not_true, Bool.false_eq_true, if_false]
  cases decodeElements (convertQVariant codec depth) children [] with
  | returned ok xs => cases ok <;> rfl
  | threw e xs => rfl
  | diverged => rfl

theorem convertQVariant.decode_map (codec : StringCodec) (depth : Nat)
    (entries : List (Node × Node)) (rhs : QVariant) :
    convertQVariant.decode codec (depth + 1) (Node.map entries) rhs
      = match decodeEntries (convertQString codec) (convertQVariant codec depth) entries [] with
        | .returned true m => Outcome.returned true (QVariant.map m)
        | .returned false _ => Outcome.threw Exception.BadConversion rhs
        | .threw e _ => Outcome.threw e rhs
        | .diverged => Outcome.diverged := by
  have h : convertQVariant.decode codec (depth + 1) (Node.map entries) rhs
      = match (Node.map entries).as
          (convertQMap (convertQString codec) (convertQVariant codec depth)) with
        | .value m => Outcome.returned true (QVariant.map m)
        | .raised e => Outcome.threw e rhs
        | .diverged => Outcome.diverged := rfl
  rw [h]
  simp only [Node.as, convertQMap, convertQMap.decode, Node.IsMap, Node.pairs,
    Bool.not_true, Bool.false_eq_true, if_false]
  cases decodeEntries (convertQString codec) (convertQVariant codec depth) entries [] with
  | returned ok m => cases ok <;> rfl
  | threw e m => rfl
  | diverged => rfl

theorem convertQVariant.decode_undefined (codec : StringCodec) (depth : Nat) (rhs : QVariant) :
    convertQVariant.decode codec depth Node.undefined rhs = Outcome.diverged := by
  induction depth generalizing rhs with
  | zero => rfl
  | succ depth ih =>
    have h : convertQVariant.decode codec (depth + 1) Node.undefined rhs
        = match Node.undefined.as (convertQVariant codec depth) with
          | .value v => Outcome.returned true v
          | .raised e => Outcome.threw e rhs
          | .diverged => Outcome.diverged := rfl
    have h2 : Node.undefined.as (convertQVariant codec depth) = Result.diverged := by
      simp [Node.as, convertQVariant, ih]
    rw [h, h2]

theorem QVariant.textFormMap_eq (m : List (QString × QVariant)) :
    QVariant.textFormMap m = m.map (fun e => (e.1, e.2.textForm)) := by
  induction m with
  | nil => rfl
  | cons e rest ih => simp [QVariant.textFormMap, ih]

theorem QVariant.textFormMap_wellFormed (m : List (QString × QVariant))
    (h : QMap.WellFormed m) : QMap.WellFormed (QVariant.textFormMap m) := by
  unfold QMap.WellFormed at h ⊢
  rw [QVariant.textFormMap_eq, List.pairwise_map]
  exact h

theorem as_convertQString_scalar (codec : StringCodec) (payload : StdString) :
    (Node.scalar payload).as (convertQString codec)
      = Result.value (codec.fromStdString payload) :=
  rfl

theorem as_convertQString_of_isScalar (codec : StringCodec) (node : Node)
    (h : node.IsScalar = true) :
    node.as (convertQString codec) = Result.value (codec.fromStdString node.Scalar) := by
  cases node <;> first | rfl | simp [Node.IsScalar] at h

theorem as_convertQString_of_not_isScalar (codec : StringCodec) (node : Node)
    (h : node.IsScalar = false) :
    node.as (convertQString codec) = Result.raised Exception.BadConversion := by
  cases node <;> first | rfl | simp [Node.IsScalar] at h

theorem decodeElements_of_forall₂ {T : Type} (c : Convert T) (children : List Node)
    (vs : List T) (h : List.Forall₂ (fun ch v => ch.as c = Result.value v) children vs)
    (rhs : List T) :
    decodeElements c children rhs = Outcome.returned true (rhs ++ vs) := by
  induction h generalizing rhs with
  | nil => simp [decodeElements]
  | cons hhead _ ih => simp [decodeElements, hhead, ih]

theorem decodeEntries_nonScalar_key {Value : Type} (codec : StringCodec) (cV : Convert Value)
    (entries : List (Node × Node)) (h : ∃ it ∈ entries, it.1.IsScalar = false)
    (rhs out : QMap QString Value) :
    decodeEntries (convertQString codec) cV entries rhs ≠ Outcome.returned true out := by
  induction entries generalizing rhs with
  | nil => simp at h
  | cons it rest ih =>
    cases hv : it.2.as cV with
    | raised e => simp [decodeEntries, hv]
    | diverged => simp [decodeEntries, hv]
    | value value =>
      by_cases hk : it.1.IsScalar = true
      · have hrest : ∃ it2 ∈ rest, it2.1.IsScalar = false := by
          obtain ⟨it2, hmem, h2⟩ := h
          rcases List.mem_cons.mp hmem with rfl | hmem2
          · rw [hk] at h2; cases h2
          · exact ⟨it2, hmem2, h2⟩
        simp only [decodeEntries, hv, as_convertQString_of_isScalar codec it.1 hk]
        exact ih hrest _
      · have hk2 : it.1.IsScalar = false := by simpa using hk
        simp [decodeEntries, hv, as_convertQString_of_not_isScalar codec it.1 hk2]

mutual
theorem convertQVariant.decode_encode (codec : StringCodec) :
    ∀ v : QVariant, codec.AsciiTransparent ∨ v.inStringFragment = true →
      v.textSurvives codec = true → ∀ depth : Nat, v.depth < depth →
      ∀ out : QVariant,
        convertQVariant.decode codec depth (convertQVariant.encode codec v) out
          = Outcome.returned true v.textForm
  | .invalid, _, _, depth, hd, out => by
    cases depth with
    | zero => omega
    | succ d => rfl
  | .other _, _, _, depth, hd, out => by
    cases depth with
    | zero => omega
    | succ d => rfl
  | .bool b, hp, _, depth, hd, out => by
    have ha : codec.AsciiTransparent := by
      rcases hp with h | h
      · exact h
      · simp [QVariant.inStringFragment] at h
    cases depth with
    | zero => omega
    | succ d =>
      cases b
      · have h := (ha [0x66, 0x61, 0x6C, 0x73, 0x65] (by decide)).1
        simp only [convertQVariant.encode, encodeBool, convertQVariant.decode_scalar,
          QVariant.textForm, Bool.false_eq_true, if_false, if_true]
        rw [show c_str [0x66, 0x61, 0x6C, 0x73, 0x65] = [0x66, 0x61, 0x6C, 0x73, 0x65] from rfl]
        simp [h]
      · have h := (ha [0x74, 0x72, 0x75, 0x65] (by decide)).1
        simp only [convertQVariant.encode, encodeBool, convertQVariant.decode_scalar,
          QVariant.textForm, Bool.false_eq_true, if_false, if_true]
        rw [show c_str [0x74, 0x72, 0x75, 0x65] = [0x74, 0x72, 0x75, 0x65] from rfl]
        simp [h]
  | .int i, hp, _, depth, hd, out => by
    have ha : codec.AsciiTransparent := by
      rcases hp with h | h
      · exact h
      · simp [QVariant.inStringFragment] at h
    cases depth with
    | zero => omega
    | succ d =>
      have hc : c_str (decimalText i) = decimalText i :=
        c_str_of_nonzero _ (fun b hb => (decimalText_ascii i b hb).1)
      have h := (ha (decimalText i) (fun b hb => (decimalText_ascii i b hb).2)).1
      simp only [convertQVariant.encode, encodeInt, convertQVariant.decode_scalar,
        QVariant.textForm, hc, h]
  | .string s, _, hs, depth, hd, out => by
    cases depth with
    | zero => omega
    | succ d =>
      simp only [QVariant.textSurvives, decide_eq_true_eq] at hs
      simp only [convertQVariant.encode, convertQString.encode, convertQVariant.decode_scalar,
        QVariant.textForm, hs]
  | .list xs, hp, hs, depth, hd, out => by
    cases depth with
    | zero => omega
    | succ d =>
      simp only [QVariant.textSurvives] at hs
      simp only [QVariant.depth] at hd
      simp only [QVariant.inStringFragment] at hp
      have h := convertQVariant.decodeElements_encode codec xs hp hs d (by omega) []
      simp only [convertQVariant.encode, convertQVariant.encodeList_eq, List.nil_append,
        convertQVariant.decode_sequence, h, QVariant.textForm]
  | .map m, hp, hs, depth, hd, out => by
    cases depth with
    | zero => omega
    | succ d =>
      simp only [QVariant.textSurvives, Bool.and_eq_true, decide_eq_true_eq] at hs
      simp only [QVariant.depth] at hd
      simp only [QVariant.inStringFragment] at hp
      have h := convertQVariant.forall₂_encodeMap codec m hp hs.2 d (by omega)
      have h2 := decodeEntries_eq_foldl (convertQString codec) (convertQVariant codec d) _ _ h []
      have h3 := foldl_assign_sorted (QVariant.textFormMap m) []
        (by simpa using QVariant.textFormMap_wellFormed m hs.1)
      simp only [List.nil_append] at h3
      simp only [convertQVariant.encode, convertQVariant.encodeMap_eq, List.nil_append,
        convertQVariant.decode_map, h2, h3, QVariant.textForm]
theorem convertQVariant.decodeElements_encode (codec : StringCodec) :
    ∀ xs : List QVariant,
      codec.AsciiTransparent ∨ QVariant.inStringFragmentList xs = true →
      QVariant.textSurvivesList codec xs = true → ∀ depth : Nat,
      QVariant.depthList xs < depth → ∀ rhs : List QVariant,
        decodeElements (convertQVariant codec depth) (xs.map (convertQVariant.encode codec)) rhs
          = Outcome.returned true (rhs ++ QVariant.textFormList xs)
  | [], _, _, _, _, rhs => by simp [decodeElements, QVariant.textFormList]
  | x :: rest, hp, hs, depth, hd, rhs => by
    simp only [QVariant.textSurvivesList, Bool.and_eq_true] at hs
    simp only [QVariant.depthList] at hd
    simp only [QVariant.inStringFragmentList, Bool.and_eq_true] at hp
    have hx := convertQVariant.decode_encode codec x (hp.imp id And.left) hs.1 depth
      (by omega) QVariant.invalid
    have hrest := convertQVariant.decodeElements_encode codec rest (hp.imp id And.right) hs.2
      depth (by omega) (rhs ++ [x.textForm])
    have hx2 : (convertQVariant.encode codec x).as (convertQVariant codec depth)
        = Result.value x.textForm := by
      simp [Node.as, convertQVariant, hx]
    simp [decodeElements, hx2, hrest, QVariant.textFormList]
theorem convertQVariant.forall₂_encodeMap (codec : StringCodec) :
    ∀ m : List (QString × QVariant),
      codec.AsciiTransparent ∨ QVariant.inStringFragmentMap m = true →
      QVariant.textSurvivesMap codec m = true →
      ∀ depth : Nat, QVariant.depthMap m < depth →
        List.Forall₂
          (fun e kv => e.1.as (convertQString codec) = Result.value kv.1
            ∧ e.2.as (convertQVariant codec depth) = Result.value kv.2)
          (m.map (fun it =>
            (convertQString.encode codec it.1, convertQVariant.encode codec it.2)))
          (QVariant.textFormMap m)
  | [], _, _, _, _ => List.Forall₂.nil
  | e :: rest, hp, hs, depth, hd => by
    simp only [QVariant.textSurvivesMap, Bool.and_eq_true, decide_eq_true_eq] at hs
    simp only [QVariant.depthMap] at hd
    simp only [QVariant.inStringFragmentMap, Bool.and_eq_true] at hp
    have hv := convertQVariant.decode_encode codec e.2 (hp.imp id And.left) hs.1.2 depth
      (by omega) QVariant.invalid
    have hrest := convertQVariant.forall₂_encodeMap codec rest (hp.imp id And.right) hs.2 depth
      (by omega)
    have hv2 : (convertQVariant.encode codec e.2).as (convertQVariant codec depth)
        = Result.value e.2.textForm := by
      simp [Node.as, convertQVariant, hv]
    have hk : (convertQString.encode codec e.1).as (convertQString codec)
        = Result.value e.1 := by
      rw [convertQString.encode, as_convertQString_scalar, hs.1.1]
    exact List.Forall₂.cons ⟨hk, hv2⟩ hrest
end

mutual
theorem convertQVariant.encode_textForm (codec : StringCodec) (ha : codec.AsciiTransparent) :
    ∀ v : QVariant,
      convertQVariant.encode codec v.textForm = convertQVariant.encode codec v
  | .invalid => rfl
  | .other _ => rfl
  | .string _ => rfl
  | .bool b => by
    cases b
    · have h := (ha [0x66, 0x61, 0x6C, 0x73, 0x65] (by decide)).2
      simp [QVariant.textForm, convertQVariant.encode, convertQString.encode, encodeBool, h]
    · have h := (ha [0x74, 0x72, 0x75, 0x65] (by decide)).2
      simp [QVariant.textForm, convertQVariant.encode, convertQString.encode, encodeBool, h]
  | .int i => by
    have h := (ha (decimalText i) (fun b hb => (decimalText_ascii i b hb).2)).2
    simp [QVariant.textForm, convertQVariant.encode, convertQString.encode, encodeInt, h]
  | .list xs => by
    simp only [QVariant.textForm, convertQVariant.encode,
      convertQVariant.encodeList_textForm codec ha xs []]
  | .map m => by
    simp only [QVariant.textForm, convertQVariant.encode,
      convertQVariant.encodeMap_textForm codec ha m []]
theorem convertQVariant.encodeList_textForm (codec : StringCodec)
    (ha : codec.AsciiTransparent) :
    ∀ (xs : List QVariant) (children : List Node),
      convertQVariant.encodeList codec (QVariant.textFormList xs) children
        = convertQVariant.encodeList codec xs children
  | [], _ => rfl
  | x :: rest, children => by
    simp only [QVariant.textFormList, convertQVariant.encodeList,
      convertQVariant.encode_textForm codec ha x,
      convertQVariant.encodeList_textForm codec ha rest]
theorem convertQVariant.encodeMap_textForm (codec : StringCodec)
    (ha : codec.AsciiTransparent) :
    ∀ (m : List (QString × QVariant)) (entries : List (Node × Node)),
      convertQVariant.encodeMap codec (QVariant.textFormMap m) entries
        = convertQVariant.encodeMap codec m entries
  | [], _ => rfl
  | e :: rest, entries => by
    simp only [QVariant.textFormMap, convertQVariant.encodeMap,
      convertQVariant.encode_textForm codec ha e.2,
      convertQVariant.encodeMap_textForm codec ha rest]
end

mutual
theorem QVariant.textForm_eq_self :
    ∀ v : QVariant, v.inStringFragment = true → v.textForm = v
  | .invalid, _ => rfl
  | .string _, _ => rfl
  | .list xs, h => by
    simp only [QVariant.inStringFragment] at h
    simp only [QVariant.textForm, QVariant.textFormList_eq_self xs h]
  | .map m, h => by
    simp only [QVariant.inStringFragment] at h
    simp only [QVariant.textForm, QVariant.textFormMap_eq_self m h]
  | .bool _, h => by simp [QVariant.inStringFragment] at h
  | .int _, h => by simp [QVariant.inStringFragment] at h
  | .other _, h => by simp [QVariant.inStringFragment] at h
theorem QVariant.textFormList_eq_self :
    ∀ xs : List QVariant, QVariant.inStringFragmentList xs = true →
      QVariant.textFormList xs = xs
  | [], _ => rfl
  | x :: rest, h => by
    simp only [QVariant.inStringFragmentList, Bool.and_eq_true] at h
    simp only [QVariant.textFormList, QVariant.textForm_eq_self x h.1,
      QVariant.textFormList_eq_self rest h.2]
theorem QVariant.textFormMap_eq_self :
    ∀ m : List (QString × QVariant), QVariant.inStringFragmentMap m = true →
      QVariant.textFormMap m = m
  | [], _ => rfl
  | e :: rest, h => by
    simp only [QVariant.inStringFragmentMap, Bool.and_eq_true] at h
    simp only [QVariant.textFormMap, QVariant.textForm_eq_self e.2 h.1,
      QVariant.textFormMap_eq_self rest h.2]
end

/-! ## The string adapter -/

/-- C1. String adapter round trip: for a string `s` whose UTF-8 encoding
decodes back to it, `encode s` is the scalar node whose payload is the UTF-8
bytes of `s`, and `decode (encode s) out` returns `true` with `out = s`,
whatever `out` held before. -/
theorem C1_string_round_trip (codec : StringCodec) (s : QString)
    (h : codec.fromStdString (codec.toStdString s) = s) :
    (convertQString codec).encode s = Node.scalar (codec.toStdString s) ∧
    ∀ out : QString,
      (convertQString codec).decode ((convertQString codec).encode s) out
        = Outcome.returned true s := by
  refine ⟨rfl, fun out => ?_⟩
  simp [convertQString, convertQString.encode, convertQString.decode, Node.IsScalar,
    Node.Scalar, h]

/-- Witness of C1 on the text "aé€" followed by a character outside the basic
plane, with a prior content of `out`. -/
theorem C1_string_round_trip_witness :
    (convertQString utf8Codec).encode ⟨[0x61, 0xE9, 0x20AC, 0xD83D, 0xDE00]⟩
      = Node.scalar [0x61, 0xC3, 0xA9, 0xE2, 0x82, 0xAC, 0xF0, 0x9F, 0x98, 0x80] ∧
    (convertQString utf8Codec).decode
        ((convertQString utf8Codec).encode ⟨[0x61, 0xE9, 0x20AC, 0xD83D, 0xDE00]⟩) ⟨[0x7A]⟩
      = Outcome.returned true ⟨[0x61, 0xE9, 0x20AC, 0xD83D, 0xDE00]⟩ :=
  ⟨(C1_string_round_trip utf8Codec ⟨[0x61, 0xE9, 0x20AC, 0xD83D, 0xDE00]⟩ (by decide)).1,
   (C1_string_round_trip utf8Codec ⟨[0x61, 0xE9, 0x20AC, 0xD83D, 0xDE00]⟩ (by decide)).2
     ⟨[0x7A]⟩⟩

/-! ## The sequence adapters -/

/-- C2. Sequence adapter round trip, for `QVector` and for `QList`: when the
element adapter round-trips on the elements of `xs`, `encode xs` is the
sequence node whose children are the encoded elements in order (so it has
`xs.length` children), and `decode (encode xs) out` returns `true` with
`out = xs`, whatever `out` held before.  The empty sequence is included. -/
theorem C2_sequence_round_trip {T : Type} (c : Convert T) (xs : List T)
    (h : ∀ x ∈ xs, c.RoundTrips x) :
    ((convertQVector c).encode xs = Node.sequence (xs.map c.encode) ∧
      ((convertQVector c).encode xs).size = xs.length ∧
      ∀ out : QVector T,
        (convertQVector c).decode ((convertQVector c).encode xs) out
          = Outcome.returned true xs) ∧
    ((convertQList c).encode xs = Node.sequence (xs.map c.encode) ∧
      ((convertQList c).encode xs).size = xs.length ∧
      ∀ out : QList T,
        (convertQList c).decode ((convertQList c).encode xs) out
          = Outcome.returned true xs) := by
  have hdec := decodeElements_encoded c xs h []
  simp only [List.nil_append] at hdec
  refine ⟨⟨?_, ?_, fun out => ?_⟩, ⟨?_, ?_, fun out => ?_⟩⟩
  · simp [convertQVector, convertQVector.encode, encodeElements_eq]
  · simp [convertQVector, convertQVector.encode, encodeElements_eq, Node.size]
  · simp [convertQVector, convertQVector.encode, convertQVector.decode, encodeElements_eq,
      Node.IsSequence, Node.elements, hdec]
  · simp [convertQList, convertQList.encode, encodeElements_eq]
  · simp [convertQList, convertQList.encode, encodeElements_eq, Node.size]
  · simp [convertQList, convertQList.encode, convertQList.decode, encodeElements_eq,
      Node.IsSequence, Node.elements, hdec]

/-- Witness of C2 on the string sequence `["x", "y", "z"]`. -/
theorem C2_sequence_round_trip_witness :
    (convertQVector (convertQString utf8Codec)).decode
        ((convertQVector (convertQString utf8Codec)).encode [⟨[0x78]⟩, ⟨[0x79]⟩, ⟨[0x7A]⟩])
        [⟨[0x71]⟩]
      = Outcome.returned true [⟨[0x78]⟩, ⟨[0x79]⟩, ⟨[0x7A]⟩] :=
  (C2_sequence_round_trip (convertQString utf8Codec) [⟨[0x78]⟩, ⟨[0x79]⟩, ⟨[0x7A]⟩]
    (by decide)).1.2.2 [⟨[0x71]⟩]

/-! ## The pair adapter -/

/-- C5. Pair adapter round trip: when the component adapters round-trip on `a`
and `b`, `encode (a, b)` is the sequence node with exactly the two children
`encode a`, `encode b`, and `decode (encode (a, b)) out` returns `true` with
`out.first = a` and `out.second = b`. -/
theorem C5_pair_round_trip {T U : Type} (cT : Convert T) (cU : Convert U) (a : T) (b : U)
    (ha : cT.RoundTrips a) (hb : cU.RoundTrips b) :
    (convertQPair cT cU).encode (a, b) = Node.sequence [cT.encode a, cU.encode b] ∧
    ∀ out : QPair T U,
      (convertQPair cT cU).decode ((convertQPair cT cU).encode (a, b)) out
        = Outcome.returned true (a, b) := by
  refine ⟨rfl, fun out => ?_⟩
  simp [convertQPair, convertQPair.encode, convertQPair.decode, Node.IsSequence, Node.size,
    Node.subscriptAs, Node.subscript, as_of_roundTrips cT a ha, as_of_roundTrips cU b hb]

/-- Witness of C5 on the pair `("a", ["b"])` of a string and a string list. -/
theorem C5_pair_round_trip_witness :
    (convertQPair (convertQString utf8Codec) (convertQList (convertQString utf8Codec))).decode
        ((convertQPair (convertQString utf8Codec)
            (convertQList (convertQString utf8Codec))).encode (⟨[0x61]⟩, [⟨[0x62]⟩]))
        (⟨[0x70]⟩, [])
      = Outcome.returned true (⟨[0x61]⟩, [⟨[0x62]⟩]) :=
  (C5_pair_round_trip (convertQString utf8Codec) (convertQList (convertQString utf8Codec))
    ⟨[0x61]⟩ [⟨[0x62]⟩] (by decide) (by decide)).2 (⟨[0x70]⟩, [])

/-! ## The map adapter -/

/-- C3. Map adapter round trip: for a map `m` (unique keys, held in key order)
on whose keys and values the component adapters round-trip,
`decode (encode m) out` returns `true` and `out = m`, whatever `out` held
before. -/
theorem C3_map_round_trip {Key Value : Type} [LinearOrder Key] (cK : Convert Key)
    (cV : Convert Value) (m : QMap Key Value) (hm : m.WellFormed)
    (hK : ∀ e ∈ m, cK.RoundTrips e.1) (hV : ∀ e ∈ m, cV.RoundTrips e.2)
    (out : QMap Key Value) :
    (convertQMap cK cV).decode ((convertQMap cK cV).encode m) out
      = Outcome.returned true m := by
  have h1 := decodeEntries_eq_foldl cK cV _ m (forall₂_encoded cK cV m hK hV) []
  have h2 := foldl_assign_sorted m [] (by simpa using hm)
  simp only [List.nil_append] at h2
  simp [convertQMap, convertQMap.encode, convertQMap.decode, encodeEntries_eq, Node.IsMap,
    Node.pairs, h1, h2]

/-- Witness of C3 on the string map with "a" -> "1" and "b" -> "2", decoded
over a map that held "z" -> "9". -/
theorem C3_map_round_trip_witness :
    (convertQMap (convertQString utf8Codec) (convertQString utf8Codec)).decode
        ((convertQMap (convertQString utf8Codec) (convertQString utf8Codec)).encode
          [(⟨[0x61]⟩, ⟨[0x31]⟩), (⟨[0x62]⟩, ⟨[0x32]⟩)])
        [(⟨[0x7A]⟩, ⟨[0x39]⟩)]
      = Outcome.returned true [(⟨[0x61]⟩, ⟨[0x31]⟩), (⟨[0x62]⟩, ⟨[0x32]⟩)] :=
  C3_map_round_trip (convertQString utf8Codec) (convertQString utf8Codec)
    [(⟨[0x61]⟩, ⟨[0x31]⟩), (⟨[0x62]⟩, ⟨[0x32]⟩)] (by decide) (by decide) (by decide)
    [(⟨[0x7A]⟩, ⟨[0x39]⟩)]

/-- C4. Map encode preserves order and entry count: `encode m` is the map node
whose entry list is the list of (encoded key, encoded value) of the entries of
`m` in iteration order, one node entry per source entry. -/
theorem C4_map_encode_order {Key Value : Type} [LT Key]
    [DecidableRel (fun a b : Key => a < b)] (cK : Convert Key) (cV : Convert Value)
    (m : QMap Key Value) :
    (convertQMap cK cV).encode m
        = Node.map (m.map (fun it => (cK.encode it.1, cV.encode it.2))) ∧
    ((convertQMap cK cV).encode m).size = m.length := by
  constructor
  · simp [convertQMap, convertQMap.encode, encodeEntries_eq]
  · simp [convertQMap, convertQMap.encode, encodeEntries_eq, Node.size]

/-- C10. Map decode is last-wins and discards prior contents: when the keys
and values of the entries of a map node decode to the pairs `kvs`, `decode`
returns `true` and leaves a map `m` whose key set is exactly the decoded keys,
each once, in which the value under `k` comes from the last entry with key `k`;
`m` is the same for every prior content of `out`. -/
theorem C10_map_decode_last_wins {Key Value : Type} [LinearOrder Key] (cK : Convert Key)
    (cV : Convert Value) (entries : List (Node × Node)) (kvs : List (Key × Value))
    (h : List.Forall₂
      (fun e kv => e.1.as cK = Result.value kv.1 ∧ e.2.as cV = Result.value kv.2) entries kvs)
    (out : QMap Key Value) :
    ∃ m : QMap Key Value,
      (convertQMap cK cV).decode (Node.map entries) out = Outcome.returned true m ∧
      (∀ k, k ∈ QMap.keys m ↔ k ∈ kvs.map Prod.fst) ∧
      (QMap.keys m).Nodup ∧
      (∀ pre post k v, kvs = pre ++ (k, v) :: post → k ∉ post.map Prod.fst →
        QMap.find m k = some v) ∧
      (∀ prior : QMap Key Value,
        (convertQMap cK cV).decode (Node.map entries) prior = Outcome.returned true m) := by
  have hdec := decodeEntries_eq_foldl cK cV entries kvs h []
  have hwf : QMap.WellFormed (kvs.foldl (fun m kv => QMap.assign m kv.1 kv.2) []) :=
    foldl_assign_wellFormed kvs [] (by simp [QMap.WellFormed])
  refine ⟨kvs.foldl (fun m kv => QMap.assign m kv.1 kv.2) [], ?_, ?_, ?_, ?_, ?_⟩
  · simp [convertQMap, convertQMap.decode, Node.IsMap, Node.pairs, hdec]
  · intro k
    rw [foldl_assign_keys]
    simp [QMap.keys]
  · exact QMap.keys_nodup _ hwf
  · intro pre post k v hkvs hk
    rw [hkvs]
    exact foldl_assign_find_last pre post [] k v hk
  · intro prior
    simp [convertQMap, convertQMap.decode, Node.IsMap, Node.pairs, hdec]

/-- Witness of C10 on the node with entries "b": "1", "a": "2", "b": "3",
decoded over a map that held "z" -> "9": the value under "b" is "3" and the
key "z" is gone. -/
theorem C10_map_decode_last_wins_witness :
    ∃ m : QMap QString QString,
      (convertQMap (convertQString utf8Codec) (convertQString utf8Codec)).decode
          (Node.map [(Node.scalar [0x62], Node.scalar [0x31]),
            (Node.scalar [0x61], Node.scalar [0x32]),
            (Node.scalar [0x62], Node.scalar [0x33])])
          [(⟨[0x7A]⟩, ⟨[0x39]⟩)]
        = Outcome.returned true m ∧
      QMap.find m ⟨[0x62]⟩ = some ⟨[0x33]⟩ ∧
      (⟨[0x7A]⟩ : QString) ∉ QMap.keys m := by
  obtain ⟨m, hm, hkeys, _, hlast, _⟩ :=
    C10_map_decode_last_wins (convertQString utf8Codec) (convertQString utf8Codec)
      [(Node.scalar [0x62], Node.scalar [0x31]), (Node.scalar [0x61], Node.scalar [0x32]),
        (Node.scalar [0x62], Node.scalar [0x33])]
      [(⟨[0x62]⟩, ⟨[0x31]⟩), (⟨[0x61]⟩, ⟨[0x32]⟩), (⟨[0x62]⟩, ⟨[0x33]⟩)]
      (List.Forall₂.cons ⟨rfl, rfl⟩ (List.Forall₂.cons ⟨rfl, rfl⟩
        (List.Forall₂.cons ⟨rfl, rfl⟩ List.Forall₂.nil)))
      [(⟨[0x7A]⟩, ⟨[0x39]⟩)]
  refine ⟨m, hm, ?_, ?_⟩
  · exact hlast [(⟨[0x62]⟩, ⟨[0x31]⟩), (⟨[0x61]⟩, ⟨[0x32]⟩)] [] ⟨[0x62]⟩ ⟨[0x33]⟩ rfl
      (by simp)
  · rw [hkeys]
    decide

/-! ## The first child that fails to decode -/

theorem decodeElements_first_failure {T : Type} (c : Convert T) (pre : List Node)
    (vs : List T) (ch : Node) (post : List Node) (e : Exception)
    (hpre : List.Forall₂ (fun n v => n.as c = Result.value v) pre vs)
    (hch : ch.as c = Result.raised e) (rhs : List T) :
    decodeElements c (pre ++ ch :: post) rhs = Outcome.threw e (rhs ++ vs) := by
  induction hpre generalizing rhs with
  | nil => simp [decodeElements, hch]
  | cons hhead _ ih => simp [decodeElements, hhead, ih]

theorem exists_first_failing_element {T : Type} (c : Convert T) (children : List Node)
    (hno : ∀ ch ∈ children, ch.as c ≠ Result.diverged)
    (hfail : ∃ ch ∈ children, ∃ e, ch.as c = Result.raised e) :
    ∃ (pre : List Node) (vs : List T) (ch : Node) (post : List Node) (e : Exception),
      children = pre ++ ch :: post ∧
      List.Forall₂ (fun n v => n.as c = Result.value v) pre vs ∧
      ch.as c = Result.raised e := by
  induction children with
  | nil => simp at hfail
  | cons it rest ih =>
    cases hres : it.as c with
    | diverged => exact absurd hres (hno it (List.mem_cons_self _ _))
    | raised e => exact ⟨[], [], it, rest, e, rfl, List.Forall₂.nil, hres⟩
    | value t =>
      have hrest : ∃ ch ∈ rest, ∃ e, ch.as c = Result.raised e := by
        obtain ⟨ch, hch, e, he⟩ := hfail
        rcases List.mem_cons.mp hch with rfl | hmem
        · rw [hres] at he; cases he
        · exact ⟨ch, hmem, e, he⟩
      obtain ⟨pre, vs, ch, post, e, hsplit, hpre, hch⟩ :=
        ih (fun ch hch => hno ch (List.mem_cons_of_mem _ hch)) hrest
      exact ⟨it :: pre, t :: vs, ch, post, e, by rw [hsplit]; rfl,
        List.Forall₂.cons hres hpre, hch⟩

theorem decodeElements_ne_returned_false {T : Type} (c : Convert T) (children : List Node)
    (rhs out : List T) :
    decodeElements c children rhs ≠ Outcome.returned false out := by
  induction children generalizing rhs with
  | nil => simp [decodeElements]
  | cons it rest ih =>
    cases hres : it.as c with
    | value t => simpa [decodeElements, hres] using ih (rhs ++ [t])
    | raised e => simp [decodeElements, hres]
    | diverged => simp [decodeElements, hres]

theorem decodeEntries_first_failure {Key Value : Type} [LinearOrder Key] (cK : Convert Key)
    (cV : Convert Value) (pre : List (Node × Node)) (kvs : List (Key × Value))
    (it : Node × Node) (post : List (Node × Node)) (e : Exception)
    (hpre : List.Forall₂
      (fun n kv => n.1.as cK = Result.value kv.1 ∧ n.2.as cV = Result.value kv.2) pre kvs)
    (hit : it.2.as cV = Result.raised e
      ∨ ∃ v, it.2.as cV = Result.value v ∧ it.1.as cK = Result.raised e)
    (rhs : QMap Key Value) :
    decodeEntries cK cV (pre ++ it :: post) rhs
      = Outcome.threw e (kvs.foldl (fun m kv => QMap.assign m kv.1 kv.2) rhs) := by
  induction hpre generalizing rhs with
  | nil =>
    rcases hit with h | ⟨v, hv, hk⟩
    · simp [decodeEntries, h]
    · simp [decodeEntries, hv, hk]
  | cons hhead _ ih =>
    obtain ⟨h1, h2⟩ := hhead
    simp [decodeEntries, h1, h2, ih]

theorem exists_first_failing_entry {Key Value : Type} (cK : Convert Key) (cV : Convert Value)
    (entries : List (Node × Node))
    (hno : ∀ it ∈ entries, it.1.as cK ≠ Result.diverged ∧ it.2.as cV ≠ Result.diverged)
    (hfail : ∃ it ∈ entries,
      (∃ e, it.1.as cK = Result.raised e) ∨ (∃ e, it.2.as cV = Result.raised e)) :
    ∃ (pre : List (Node × Node)) (kvs : List (Key × Value)) (it : Node × Node)
      (post : List (Node × Node)) (e : Exception),
      entries = pre ++ it :: post ∧
      List.Forall₂
        (fun n kv => n.1.as cK = Result.value kv.1 ∧ n.2.as cV = Result.value kv.2) pre kvs ∧
      (it.2.as cV = Result.raised e
        ∨ ∃ v, it.2.as cV = Result.value v ∧ it.1.as cK = Result.raised e) := by
  induction entries with
  | nil => simp at hfail
  | cons it rest ih =>
    obtain ⟨hk, hv⟩ := hno it (List.mem_cons_self _ _)
    cases hresV : it.2.as cV with
    | diverged => exact absurd hresV hv
    | raised e => exact ⟨[], [], it, rest, e, rfl, List.Forall₂.nil, Or.inl hresV⟩
    | value value =>
      cases hresK : it.1.as cK with
      | diverged => exact absurd hresK hk
      | raised e =>
        exact ⟨[], [], it, rest, e, rfl, List.Forall₂.nil, Or.inr ⟨value, hresV, hresK⟩⟩
      | value key =>
        have hrest : ∃ it2 ∈ rest,
            (∃ e, it2.1.as cK = Result.raised e) ∨ (∃ e, it2.2.as cV = Result.raised e) := by
          obtain ⟨it2, hmem, hor⟩ := hfail
          rcases List.mem_cons.mp hmem with rfl | hmem2
          · rcases hor with ⟨e, he⟩ | ⟨e, he⟩
            · rw [hresK] at he; cases he
            · rw [hresV] at he; cases he
          · exact ⟨it2, hmem2, hor⟩
        obtain ⟨pre, kvs, it2, post, e, hsplit, hpre, hit⟩ :=
          ih (fun it2 hmem => hno it2 (List.mem_cons_of_mem _ hmem)) hrest
        exact ⟨it :: pre, (key, value) :: kvs, it2, post, e, by rw [hsplit]; rfl,
          List.Forall₂.cons ⟨hresK, hresV⟩ hpre, hit⟩

theorem decodeEntries_ne_returned_false {Key Value : Type} [LinearOrder Key]
    (cK : Convert Key) (cV : Convert Value) (entries : List (Node × Node))
    (rhs out : QMap Key Value) :
    decodeEntries cK cV entries rhs ≠ Outcome.returned false out := by
  induction entries generalizing rhs with
  | nil => simp [decodeEntries]
  | cons it rest ih =>
    cases hv : it.2.as cV with
    | raised e => simp [decodeEntries, hv]
    | diverged => simp [decodeEntries, hv]
    | value value =>
      cases hk : it.1.as cK with
      | raised e => simp [decodeEntries, hv, hk]
      | diverged => simp [decodeEntries, hv, hk]
      | value key => simpa [decodeEntries, hv, hk] using ih (QMap.assign rhs key value)

/-! ## Failure behaviour -/

/-- C6. Shape rejection without mutation: for every node `n` and every prior
value of `out`, string decode of a non-scalar, array, list and pair decode of a
non-sequence, and map decode of a non-map each return `false` and leave `out`
equal to its prior value. -/
theorem C6_shape_rejection {T U Key Value : Type} [LT Key]
    [DecidableRel (fun a b : Key => a < b)] (codec : StringCodec) (cT : Convert T)
    (cU : Convert U) (cK : Convert Key) (cV : Convert Value) (n : Node) :
    (n.IsScalar = false →
      ∀ out : QString, (convertQString codec).decode n out = Outcome.returned false out) ∧
    (n.IsSequence = false →
      (∀ out : QVector T, (convertQVector cT).decode n out = Outcome.returned false out) ∧
      (∀ out : QList T, (convertQList cT).decode n out = Outcome.returned false out) ∧
      (∀ out : QPair T U,
        (convertQPair cT cU).decode n out = Outcome.returned false out)) ∧
    (n.IsMap = false →
      ∀ out : QMap Key Value,
        (convertQMap cK cV).decode n out = Outcome.returned false out) := by
  refine ⟨fun h out => ?_, fun h => ⟨fun out => ?_, fun out => ?_, fun out => ?_⟩,
    fun h out => ?_⟩
  · simp [convertQString, convertQString.decode, h]
  · simp [convertQVector, convertQVector.decode, h]
  · simp [convertQList, convertQList.decode, h]
  · simp [convertQPair, convertQPair.decode, h]
  · simp [convertQMap, convertQMap.decode, h]

/-- Witness of C6 on a scalar node (rejected by the array, list, pair and map
adapters) and a null node (rejected by the string adapter), each with a
non-empty prior `out`. -/
theorem C6_shape_rejection_witness :
    (convertQString utf8Codec).decode Node.null ⟨[0x70]⟩ = Outcome.returned false ⟨[0x70]⟩ ∧
    (convertQVector (convertQString utf8Codec)).decode (Node.scalar [0x31]) [⟨[0x70]⟩]
      = Outcome.returned false [⟨[0x70]⟩] ∧
    (convertQMap (convertQString utf8Codec) (convertQString utf8Codec)).decode
        (Node.scalar [0x31]) [(⟨[0x70]⟩, ⟨[0x71]⟩)]
      = Outcome.returned false [(⟨[0x70]⟩, ⟨[0x71]⟩)] :=
  ⟨(@C6_shape_rejection QString QString QString QString _ _ utf8Codec
      (convertQString utf8Codec) (convertQString utf8Codec) (convertQString utf8Codec)
      (convertQString utf8Codec) Node.null).1 rfl ⟨[0x70]⟩,
   ((@C6_shape_rejection QString QString QString QString _ _ utf8Codec
      (convertQString utf8Codec) (convertQString utf8Codec) (convertQString utf8Codec)
      (convertQString utf8Codec) (Node.scalar [0x31])).2.1 rfl).1 [⟨[0x70]⟩],
   (@C6_shape_rejection QString QString QString QString _ _ utf8Codec
      (convertQString utf8Codec) (convertQString utf8Codec) (convertQString utf8Codec)
      (convertQString utf8Codec) (Node.scalar [0x31])).2.2 rfl [(⟨[0x70]⟩, ⟨[0x71]⟩)]⟩

/-- C7. Pair arity rejection: for a sequence node whose number of children is
not 2, pair decode returns `false` and leaves `out` unchanged.  The outcome is
this one for every pair of child adapters, also for adapters that throw or do
not return on every node: the size check decides before any child is read or
decoded. -/
theorem C7_pair_arity_rejection {T U : Type} (cT : Convert T) (cU : Convert U)
    (children : List Node) (h : children.length ≠ 2) (out : QPair T U) :
    (convertQPair cT cU).decode (Node.sequence children) out = Outcome.returned false out ∧
    ∀ (dT : Node → T → Outcome T) (dU : Node → U → Outcome U),
      (convertQPair { cT with decode := dT } { cU with decode := dU }).decode
          (Node.sequence children) out
        = Outcome.returned false out := by
  constructor
  · simp [convertQPair, convertQPair.decode, Node.IsSequence, Node.size, h]
  · intro dT dU
    simp [convertQPair, convertQPair.decode, Node.IsSequence, Node.size, h]

/-- Witness of C7 on a sequence of three scalars and a non-empty prior `out`. -/
theorem C7_pair_arity_rejection_witness :
    (convertQPair (convertQString utf8Codec) (convertQString utf8Codec)).decode
        (Node.sequence [Node.scalar [0x31], Node.scalar [0x32], Node.scalar [0x33]])
        (⟨[0x70]⟩, ⟨[0x71]⟩)
      = Outcome.returned false (⟨[0x70]⟩, ⟨[0x71]⟩) :=
  (C7_pair_arity_rejection (convertQString utf8Codec) (convertQString utf8Codec)
    [Node.scalar [0x31], Node.scalar [0x32], Node.scalar [0x33]] (by decide)
    (⟨[0x70]⟩, ⟨[0x71]⟩)).1

/-- C8, the claim fails: the sequence node `[null]` has the shape the array
adapter requires and its only child fails to decode as a string (string decode
returns `false` on it), yet array decode does not return `false`: the
bad-conversion exception leaves the call. -/
theorem C8_child_failure_counterexample :
    (convertQString utf8Codec).decode Node.null (convertQString utf8Codec).init
      = Outcome.returned false (convertQString utf8Codec).init ∧
    (convertQVector (convertQString utf8Codec)).decode (Node.sequence [Node.null]) []
      = Outcome.threw Exception.BadConversion [] ∧
    ¬ ∃ out, (convertQVector (convertQString utf8Codec)).decode (Node.sequence [Node.null]) []
      = Outcome.returned false out := by
  refine ⟨rfl, rfl, ?_⟩
  rintro ⟨out, h⟩
  have h2 : (convertQVector (convertQString utf8Codec)).decode (Node.sequence [Node.null]) []
      = Outcome.threw Exception.BadConversion [] := rfl
  rw [h2] at h
  cases h

/-- C8, amended: for the array, list, pair and map adapters, when the node has
the required shape, no child extraction runs forever and the extraction of at
least one child (element, key or value) fails with an exception, the parent
decode does not return `false`: the exception of the first child that fails
leaves the call, with `out` holding what the children before it gave.  The
same holds in direct form for every node whose children before some child
decode and whose child there fails, whatever follows.  Each of the four decode
functions returns `false` exactly when the node has not the required shape,
and then with `out` unchanged. -/
theorem C8_child_failure_raises {T U Key Value : Type} [LinearOrder Key] (cT : Convert T)
    (cU : Convert U) (cK : Convert Key) (cV : Convert Value) :
    (∀ (pre : List Node) (vs : List T) (ch : Node) (post : List Node) (e : Exception),
      List.Forall₂ (fun n v => n.as cT = Result.value v) pre vs →
      ch.as cT = Result.raised e →
      ∀ out : List T,
        (convertQVector cT).decode (Node.sequence (pre ++ ch :: post)) out
          = Outcome.threw e vs ∧
        (convertQList cT).decode (Node.sequence (pre ++ ch :: post)) out
          = Outcome.threw e vs) ∧
    (∀ children : List Node,
      (∀ ch ∈ children, ch.as cT ≠ Result.diverged) →
      (∃ ch ∈ children, ∃ e, ch.as cT = Result.raised e) →
      ∀ out : List T,
        ∃ (pre : List Node) (vs : List T) (ch : Node) (post : List Node) (e : Exception),
          children = pre ++ ch :: post ∧
          List.Forall₂ (fun n v => n.as cT = Result.value v) pre vs ∧
          ch.as cT = Result.raised e ∧
          (convertQVector cT).decode (Node.sequence children) out = Outcome.threw e vs ∧
          (convertQList cT).decode (Node.sequence children) out = Outcome.threw e vs) ∧
    (∀ first second : Node,
      first.as cT ≠ Result.diverged → second.as cU ≠ Result.diverged →
      ((∃ e, first.as cT = Result.raised e) ∨ (∃ e, second.as cU = Result.raised e)) →
      ∀ out : QPair T U,
        (∃ e, first.as cT = Result.raised e ∧
          (convertQPair cT cU).decode (Node.sequence [first, second]) out
            = Outcome.threw e out) ∨
        (∃ a e, first.as cT = Result.value a ∧ second.as cU = Result.raised e ∧
          (convertQPair cT cU).decode (Node.sequence [first, second]) out
            = Outcome.threw e (a, out.2))) ∧
    (∀ (pre : List (Node × Node)) (kvs : List (Key × Value)) (it : Node × Node)
      (post : List (Node × Node)) (e : Exception),
      List.Forall₂
        (fun n kv => n.1.as cK = Result.value kv.1 ∧ n.2.as cV = Result.value kv.2) pre kvs →
      (it.2.as cV = Result.raised e
        ∨ ∃ v, it.2.as cV = Result.value v ∧ it.1.as cK = Result.raised e) →
      ∀ out : QMap Key Value,
        (convertQMap cK cV).decode (Node.map (pre ++ it :: post)) out
          = Outcome.threw e (kvs.foldl (fun m kv => QMap.assign m kv.1 kv.2) [])) ∧
    (∀ entries : List (Node × Node),
      (∀ it ∈ entries, it.1.as cK ≠ Result.diverged ∧ it.2.as cV ≠ Result.diverged) →
      (∃ it ∈ entries,
        (∃ e, it.1.as cK = Result.raised e) ∨ (∃ e, it.2.as cV = Result.raised e)) →
      ∀ out : QMap Key Value,
        ∃ (pre : List (Node × Node)) (kvs : List (Key × Value)) (it : Node × Node)
          (post : List (Node × Node)) (e : Exception),
          entries = pre ++ it :: post ∧
          List.Forall₂
            (fun n kv => n.1.as cK = Result.value kv.1 ∧ n.2.as cV = Result.value kv.2)
            pre kvs ∧
          (it.2.as cV = Result.raised e
            ∨ ∃ v, it.2.as cV = Result.value v ∧ it.1.as cK = Result.raised e) ∧
          (convertQMap cK cV).decode (Node.map entries) out
            = Outcome.threw e (kvs.foldl (fun m kv => QMap.assign m kv.1 kv.2) [])) ∧
    (∀ (n : Node) (out out2 : List T),
      ((convertQVector cT).decode n out = Outcome.returned false out2
        ↔ n.IsSequence = false ∧ out2 = out) ∧
      ((convertQList cT).decode n out = Outcome.returned false out2
        ↔ n.IsSequence = false ∧ out2 = out)) ∧
    (∀ (n : Node) (out out2 : QPair T U),
      (convertQPair cT cU).decode n out = Outcome.returned false out2
        ↔ (n.IsSequence = false ∨ n.size ≠ 2) ∧ out2 = out) ∧
    (∀ (n : Node) (out out2 : QMap Key Value),
      (convertQMap cK cV).decode n out = Outcome.returned false out2
        ↔ n.IsMap = false ∧ out2 = out) := by
  have hseq : ∀ (pre : List Node) (vs : List T) (ch : Node) (post : List Node)
      (e : Exception), List.Forall₂ (fun n v => n.as cT = Result.value v) pre vs →
      ch.as cT = Result.raised e → ∀ out : List T,
        (convertQVector cT).decode (Node.sequence (pre ++ ch :: post)) out
          = Outcome.threw e vs ∧
        (convertQList cT).decode (Node.sequence (pre ++ ch :: post)) out
          = Outcome.threw e vs := by
    intro pre vs ch post e hpre hch out
    have h := decodeElements_first_failure cT pre vs ch post e hpre hch []
    simp only [List.nil_append] at h
    exact ⟨by simp [convertQVector, convertQVector.decode, Node.IsSequence, Node.elements, h],
      by simp [convertQList, convertQList.decode, Node.IsSequence, Node.elements, h]⟩
  have hmap : ∀ (pre : List (Node × Node)) (kvs : List (Key × Value)) (it : Node × Node)
      (post : List (Node × Node)) (e : Exception),
      List.Forall₂
        (fun n kv => n.1.as cK = Result.value kv.1 ∧ n.2.as cV = Result.value kv.2) pre kvs →
      (it.2.as cV = Result.raised e
        ∨ ∃ v, it.2.as cV = Result.value v ∧ it.1.as cK = Result.raised e) →
      ∀ out : QMap Key Value,
        (convertQMap cK cV).decode (Node.map (pre ++ it :: post)) out
          = Outcome.threw e (kvs.foldl (fun m kv => QMap.assign m kv.1 kv.2) []) := by
    intro pre kvs it post e hpre hit out
    have h := decodeEntries_first_failure cK cV pre kvs it post e hpre hit []
    simp [convertQMap, convertQMap.decode, Node.IsMap, Node.pairs, h]
  refine ⟨hseq, fun children hno hfail out => ?_, fun first second h1 h2 hfail out => ?_,
    hmap, fun entries hno hfail out => ?_, fun n out out2 => ⟨?_, ?_⟩, fun n out out2 => ?_,
    fun n out out2 => ?_⟩
  · obtain ⟨pre, vs, ch, post, e, hsplit, hpre, hch⟩ :=
      exists_first_failing_element cT children hno hfail
    have h := hseq pre vs ch post e hpre hch out
    rw [← hsplit] at h
    exact ⟨pre, vs, ch, post, e, hsplit, hpre, hch, h.1, h.2⟩
  · cases hf : first.as cT with
    | diverged => exact absurd hf h1
    | raised e =>
      exact Or.inl ⟨e, rfl, by simp [convertQPair, convertQPair.decode, Node.IsSequence,
        Node.size, Node.subscriptAs, Node.subscript, hf]⟩
    | value a =>
      cases hs : second.as cU with
      | diverged => exact absurd hs h2
      | raised e =>
        exact Or.inr ⟨a, e, rfl, rfl, by simp [convertQPair, convertQPair.decode,
          Node.IsSequence, Node.size, Node.subscriptAs, Node.subscript, hf, hs]⟩
      | value b =>
        rcases hfail with ⟨e, he⟩ | ⟨e, he⟩
        · rw [hf] at he; cases he
        · rw [hs] at he; cases he
  · obtain ⟨pre, kvs, it, post, e, hsplit, hpre, hit⟩ :=
      exists_first_failing_entry cK cV entries hno hfail
    have h := hmap pre kvs it post e hpre hit out
    rw [← hsplit] at h
    exact ⟨pre, kvs, it, post, e, hsplit, hpre, hit, h⟩
  · cases n with
    | sequence children =>
      simp only [convertQVector, convertQVector.decode, Node.IsSequence, Node.elements]
      simpa using decodeElements_ne_returned_false cT children [] out2
    | _ => simp [convertQVector, convertQVector.decode, Node.IsSequence, eq_comm]
  · cases n with
    | sequence children =>
      simp only [convertQList, convertQList.decode, Node.IsSequence, Node.elements]
      simpa using decodeElements_ne_returned_false cT children [] out2
    | _ => simp [convertQList, convertQList.decode, Node.IsSequence, eq_comm]
  · simp only [convertQPair, convertQPair.decode]
    split_ifs with hs hsz
    · have hs2 : n.IsSequence = false := by simpa using hs
      simp [hs2, eq_comm]
    · have hsz2 : n.size ≠ 2 := by simpa using hsz
      exact ⟨fun h => ⟨Or.inr hsz2, by injection h with _ h; exact h.symm⟩,
        fun h => by rw [h.2]⟩
    · have hs2 : n.IsSequence = true := by simpa using hs
      have hsz2 : n.size = 2 := by simpa using hsz
      cases hf : n.subscriptAs cT 0 with
      | raised e => simp [hs2, hsz2]
      | diverged => simp [hs2, hsz2]
      | value a =>
        cases hsec : n.subscriptAs cU 1 with
        | raised e => simp [hs2, hsz2]
        | diverged => simp [hs2, hsz2]
        | value b => simp [hs2, hsz2]
  · cases n with
    | map entries =>
      simp only [convertQMap, convertQMap.decode, Node.IsMap, Node.pairs]
      simpa using decodeEntries_ne_returned_false cK cV entries [] out2
    | _ => simp [convertQMap, convertQMap.decode, Node.IsMap, eq_comm]

/-- Witness of C8 (amended) on the sequence `["a", null, "b"]` decoded as a
string list over a non-empty list, and on the map `{"j": "1", "k": null}`
decoded as a string map: the bad-conversion exception of the null child leaves
the call, with `out` holding what was decoded before it. -/
theorem C8_child_failure_raises_witness :
    (convertQList (convertQString utf8Codec)).decode
        (Node.sequence [Node.scalar [0x61], Node.null, Node.scalar [0x62]]) [⟨[0x70]⟩]
      = Outcome.threw Exception.BadConversion [⟨[0x61]⟩] ∧
    (convertQMap (convertQString utf8Codec) (convertQString utf8Codec)).decode
        (Node.map [(Node.scalar [0x6A], Node.scalar [0x31]), (Node.scalar [0x6B], Node.null)])
        [(⟨[0x7A]⟩, ⟨[0x39]⟩)]
      = Outcome.threw Exception.BadConversion [(⟨[0x6A]⟩, ⟨[0x31]⟩)] :=
  ⟨((@C8_child_failure_raises QString QString QString QString _ (convertQString utf8Codec)
      (convertQString utf8Codec) (convertQString utf8Codec) (convertQString utf8Codec)).1
      [Node.scalar [0x61]] [⟨[0x61]⟩] Node.null [Node.scalar [0x62]] Exception.BadConversion
      (List.Forall₂.cons rfl List.Forall₂.nil) rfl [⟨[0x70]⟩]).2,
   (@C8_child_failure_raises QString QString QString QString _ (convertQString utf8Codec)
      (convertQString utf8Codec) (convertQString utf8Codec)
      (convertQString utf8Codec)).2.2.2.1
      [(Node.scalar [0x6A], Node.scalar [0x31])] [(⟨[0x6A]⟩, ⟨[0x31]⟩)]
      (Node.scalar [0x6B], Node.null) [] Exception.BadConversion
      (List.Forall₂.cons ⟨rfl, rfl⟩ List.Forall₂.nil) (Or.inl rfl) [(⟨[0x7A]⟩, ⟨[0x39]⟩)]⟩

/-- C9, the claim fails: on the sequence `["a", null]`, whose first child
decodes as a string and whose second does not, pair decode does not succeed,
and `out.first` no longer holds its prior value "p" but the decoded "a". -/
theorem C9_pair_atomic_counterexample :
    (convertQPair (convertQString utf8Codec) (convertQString utf8Codec)).decode
        (Node.sequence [Node.scalar [0x61], Node.null]) (⟨[0x70]⟩, ⟨[0x71]⟩)
      = Outcome.threw Exception.BadConversion (⟨[0x61]⟩, ⟨[0x71]⟩) ∧
    (⟨[0x61]⟩ : QString) ≠ ⟨[0x70]⟩ := by
  refine ⟨rfl, by decide⟩

/-- C9, amended: when pair decode returns `false`, `out.first` and `out.second`
hold their prior values; when the first child fails to decode, the exception
leaves both unchanged; when the first child decodes as `a` and the second fails
to decode, the exception leaves `out.first = a` and `out.second` unchanged. -/
theorem C9_pair_failure_frame {T U : Type} (cT : Convert T) (cU : Convert U) :
    (∀ (n : Node) (out out2 : QPair T U),
      (convertQPair cT cU).decode n out = Outcome.returned false out2 → out2 = out) ∧
    (∀ (first second : Node) (e : Exception) (out : QPair T U),
      first.as cT = Result.raised e →
      (convertQPair cT cU).decode (Node.sequence [first, second]) out
        = Outcome.threw e out) ∧
    (∀ (first second : Node) (a : T) (e : Exception) (out : QPair T U),
      first.as cT = Result.value a → second.as cU = Result.raised e →
      (convertQPair cT cU).decode (Node.sequence [first, second]) out
        = Outcome.threw e (a, out.2)) := by
  refine ⟨fun n out out2 h => ?_, fun first second e out hf => ?_,
    fun first second a e out hf hs => ?_⟩
  · simp only [convertQPair, convertQPair.decode] at h
    split_ifs at h with h1 h2
    · cases h; rfl
    · cases h; rfl
    · cases hf : n.subscriptAs cT 0 with
      | raised e => rw [hf] at h; cases h
      | diverged => rw [hf] at h; cases h
      | value a =>
        rw [hf] at h
        cases hs : n.subscriptAs cU 1 with
        | raised e => rw [hs] at h; cases h
        | diverged => rw [hs] at h; cases h
        | value b => rw [hs] at h; cases h
  · simp [convertQPair, convertQPair.decode, Node.IsSequence, Node.size, Node.subscriptAs,
      Node.subscript, hf]
  · simp [convertQPair, convertQPair.decode, Node.IsSequence, Node.size, Node.subscriptAs,
      Node.subscript, hf, hs]

/-- Witness of C9 (amended) on a scalar node, which pair decode rejects with
`out` unchanged, and on the sequence `["a", null]`. -/
theorem C9_pair_failure_frame_witness :
    ((⟨[0x70]⟩, ⟨[0x71]⟩) : QPair QString QString) = (⟨[0x70]⟩, ⟨[0x71]⟩) ∧
    (convertQPair (convertQString utf8Codec) (convertQString utf8Codec)).decode
        (Node.sequence [Node.null, Node.scalar [0x61]]) (⟨[0x70]⟩, ⟨[0x71]⟩)
      = Outcome.threw Exception.BadConversion (⟨[0x70]⟩, ⟨[0x71]⟩) ∧
    (convertQPair (convertQString utf8Codec) (convertQString utf8Codec)).decode
        (Node.sequence [Node.scalar [0x61], Node.null]) (⟨[0x70]⟩, ⟨[0x71]⟩)
      = Outcome.threw Exception.BadConversion (⟨[0x61]⟩, ⟨[0x71]⟩) :=
  ⟨(C9_pair_failure_frame (convertQString utf8Codec) (convertQString utf8Codec)).1
      (Node.scalar [0x31]) (⟨[0x70]⟩, ⟨[0x71]⟩) (⟨[0x70]⟩, ⟨[0x71]⟩) rfl,
   (C9_pair_failure_frame (convertQString utf8Codec) (convertQString utf8Codec)).2.1
      Node.null (Node.scalar [0x61]) Exception.BadConversion (⟨[0x70]⟩, ⟨[0x71]⟩) rfl,
   (C9_pair_failure_frame (convertQString utf8Codec) (convertQString utf8Codec)).2.2
      (Node.scalar [0x61]) Node.null ⟨[0x61]⟩ Exception.BadConversion (⟨[0x70]⟩, ⟨[0x71]⟩)
      rfl rfl⟩

/-! ## The variant adapter -/

/-- C11. Encode of a variant follows the dispatch table and always yields a
node: the scalar `true` or `false` for a `bool`, the scalar of the base-10 text
for an `int`, the scalar of the UTF-8 bytes for a string, the sequence node of
the encoded elements for a list (what `convert<QList<QVariant>>::encode`
gives), the map node of the encoded keys and values for a map (what
`convert<QMap<QString, QVariant>>::encode` gives), and the default-constructed
node, which has no payload and no children, for the invalid variant and for
every other type. -/
theorem C11_variant_encode_dispatch (codec : StringCodec) :
    (∀ b : Bool, convertQVariant.encode codec (QVariant.bool b)
      = Node.scalar (if b then [0x74, 0x72, 0x75, 0x65] else [0x66, 0x61, 0x6C, 0x73, 0x65])) ∧
    (∀ i : Int, convertQVariant.encode codec (QVariant.int i) = Node.scalar (decimalText i)) ∧
    (decimalText 7 = [0x37] ∧ decimalText (-42) = [0x2D, 0x34, 0x32] ∧ decimalText 0 = [0x30]) ∧
    (∀ s : QString,
      convertQVariant.encode codec (QVariant.string s) = Node.scalar (codec.toStdString s)) ∧
    (∀ (xs : List QVariant) (depth : Nat),
      convertQVariant.encode codec (QVariant.list xs)
        = Node.sequence (xs.map (convertQVariant.encode codec)) ∧
      convertQVariant.encode codec (QVariant.list xs)
        = (convertQList (convertQVariant codec depth)).encode xs) ∧
    (∀ (m : List (QString × QVariant)) (depth : Nat),
      convertQVariant.encode codec (QVariant.map m)
        = Node.map (m.map (fun it =>
            (Node.scalar (codec.toStdString it.1), convertQVariant.encode codec it.2))) ∧
      convertQVariant.encode codec (QVariant.map m)
        = (convertQMap (convertQString codec) (convertQVariant codec depth)).encode m) ∧
    convertQVariant.encode codec QVariant.invalid = Node.null ∧
    (∀ typeId : Nat, convertQVariant.encode codec (QVariant.other typeId) = Node.null) ∧
    (Node.null.Scalar = [] ∧ Node.null.size = 0 ∧ Node.null.elements = []
      ∧ Node.null.pairs = []) := by
  refine ⟨fun b => rfl, fun i => rfl, ⟨by decide, by decide, by decide⟩, fun s => rfl,
    fun xs depth => ⟨?_, ?_⟩, fun m depth => ⟨?_, ?_⟩, rfl, fun _ => rfl, rfl, rfl, rfl, rfl⟩
  · simp [convertQVariant.encode, convertQVariant.encodeList_eq]
  · simp [convertQVariant.encode, convertQVariant.encodeList_eq, convertQList,
      convertQList.encode, encodeElements_eq, convertQVariant]
  · simp [convertQVariant.encode, convertQVariant.encodeMap_eq, convertQString.encode]
  · simp [convertQVariant.encode, convertQVariant.encodeMap_eq, convertQMap,
      convertQMap.encode, encodeEntries_eq, convertQVariant, convertQString]

/-- C12, evaluated: variant decode of a scalar reads the payload through
`c_str()`, so it keeps the bytes before the first zero byte only.  On the
payload `a`, zero, `b` it returns `true` with the string "a", while the whole
payload read as UTF-8 is the three-character string that the string adapter
decodes from the same node. -/
theorem C12_scalar_decode_stops_at_zero_byte :
    (∀ (codec : StringCodec) (depth : Nat) (payload : StdString) (out : QVariant),
      convertQVariant.decode codec (depth + 1) (Node.scalar payload) out
        = Outcome.returned true (QVariant.string (codec.fromStdString (c_str payload)))) ∧
    convertQVariant.decode utf8Codec 1 (Node.scalar [0x61, 0x00, 0x62]) QVariant.invalid
      = Outcome.returned true (QVariant.string ⟨[0x61]⟩) ∧
    (convertQString utf8Codec).decode (Node.scalar [0x61, 0x00, 0x62]) ⟨[]⟩
      = Outcome.returned true ⟨[0x61, 0x00, 0x62]⟩ ∧
    QVariant.string ⟨[0x61]⟩ ≠ QVariant.string ⟨[0x61, 0x00, 0x62]⟩ := by
  refine ⟨fun codec depth payload out => rfl, rfl, rfl, ?_⟩
  intro h
  injection h with h
  revert h
  decide

/-- C13. Variant decode of a null node returns `true` and leaves the invalid
(empty) variant, for every prior value of `out`. -/
theorem C13_variant_decode_null (codec : StringCodec) (depth : Nat) (out : QVariant) :
    convertQVariant.decode codec (depth + 1) Node.null out
      = Outcome.returned true QVariant.invalid :=
  rfl

/-- C14, evaluated: on an undefined node variant decode takes the last branch,
which calls `as<QVariant>()` on the same node and so enters variant decode
again; no bound on the depth of nested calls lets the call return. -/
theorem C14_variant_decode_undefined_diverges (codec : StringCodec) (depth : Nat)
    (out : QVariant) :
    convertQVariant.decode codec depth Node.undefined out = Outcome.diverged ∧
    convertQVariant.decode codec (depth + 1) Node.undefined out
      = (match Node.undefined.as (convertQVariant codec depth) with
        | .value v => Outcome.returned true v
        | .raised e => Outcome.threw e out
        | .diverged => Outcome.diverged) :=
  ⟨convertQVariant.decode_undefined codec depth out, rfl⟩

/-- C16. The array adapter and the list adapter are equivalent: on the same
list of elements the two encode functions give the same node, and on the same
node and prior content the two decode functions end the same way with the same
list in `out`; a default-constructed container is empty in both. -/
theorem C16_vector_list_equivalent {T : Type} (c : Convert T) :
    (∀ xs : List T, (convertQVector c).encode xs = (convertQList c).encode xs) ∧
    (∀ (n : Node) (out : List T),
      (convertQVector c).decode n out = (convertQList c).decode n out) ∧
    (convertQVector c).init = (convertQList c).init :=
  ⟨fun _ => rfl, fun _ _ => rfl, rfl⟩

/-- C15, the claim fails: the sequence node whose only child is a map with a
null key has the shape variant decode asks of a sequence, yet decode does not
return `true`: the bad-conversion exception raised for the key leaves the
call, and no bound on the nesting depth makes the call return `true`. -/
theorem C15_container_decode_counterexample :
    convertQVariant.decode utf8Codec 3
        (Node.sequence [Node.map [(Node.null, Node.scalar [0x78])]]) QVariant.invalid
      = Outcome.threw Exception.BadConversion QVariant.invalid ∧
    ¬ ∃ (depth : Nat) (w : QVariant),
      convertQVariant.decode utf8Codec depth
          (Node.sequence [Node.map [(Node.null, Node.scalar [0x78])]]) QVariant.invalid
        = Outcome.returned true w := by
  refine ⟨rfl, ?_⟩
  rintro ⟨depth, w, h⟩
  rcases depth with _ | _ | _ | d
  · have h2 : convertQVariant.decode utf8Codec 0
        (Node.sequence [Node.map [(Node.null, Node.scalar [0x78])]]) QVariant.invalid
        = Outcome.diverged := rfl
    rw [h2] at h
    cases h
  · have h2 : convertQVariant.decode utf8Codec 1
        (Node.sequence [Node.map [(Node.null, Node.scalar [0x78])]]) QVariant.invalid
        = Outcome.diverged := rfl
    rw [h2] at h
    cases h
  · have h2 : convertQVariant.decode utf8Codec 2
        (Node.sequence [Node.map [(Node.null, Node.scalar [0x78])]]) QVariant.invalid
        = Outcome.diverged := rfl
    rw [h2] at h
    cases h
  · have h2 : convertQVariant.decode utf8Codec (d + 3)
        (Node.sequence [Node.map [(Node.null, Node.scalar [0x78])]]) QVariant.invalid
        = Outcome.threw Exception.BadConversion QVariant.invalid := rfl
    rw [h2] at h
    cases h

/-- C15, amended: with `depth` nested calls allowed for the children, variant
decode of a sequence node whose children each decode as a variant returns
`true` with the list of the decoded children, in order and of the same length;
variant decode of a map node whose keys are all scalars and whose values each
decode as a variant returns `true` with the map of the decoded keys and values,
each key once and the last entry winning for a repeated key; and variant
decode of a map node with a key that is not a scalar never returns `true`. -/
theorem C15_variant_decode_containers (codec : StringCodec) (depth : Nat) :
    (∀ (children : List Node) (vs : List QVariant),
      List.Forall₂ (fun ch v => ch.as (convertQVariant codec depth) = Result.value v)
        children vs →
      ∀ out : QVariant,
        convertQVariant.decode codec (depth + 1) (Node.sequence children) out
          = Outcome.returned true (QVariant.list vs)
        ∧ vs.length = children.length) ∧
    (∀ (entries : List (Node × Node)) (kvs : List (QString × QVariant)),
      List.Forall₂
        (fun e kv => e.1.IsScalar = true ∧ kv.1 = codec.fromStdString e.1.Scalar
          ∧ e.2.as (convertQVariant codec depth) = Result.value kv.2) entries kvs →
      ∀ out : QVariant, ∃ m : QMap QString QVariant,
        convertQVariant.decode codec (depth + 1) (Node.map entries) out
          = Outcome.returned true (QVariant.map m) ∧
        (∀ k, k ∈ QMap.keys m ↔ k ∈ kvs.map Prod.fst) ∧
        (QMap.keys m).Nodup ∧
        (∀ pre post k v, kvs = pre ++ (k, v) :: post → k ∉ post.map Prod.fst →
          QMap.find m k = some v)) ∧
    (∀ entries : List (Node × Node), (∃ it ∈ entries, it.1.IsScalar = false) →
      ∀ out w : QVariant,
        convertQVariant.decode codec depth (Node.map entries) out
          ≠ Outcome.returned true w) := by
  refine ⟨fun children vs h out => ⟨?_, h.length_eq.symm⟩, fun entries kvs h out => ?_,
    fun entries h out w => ?_⟩
  · have h2 := decodeElements_of_forall₂ (convertQVariant codec depth) children vs h []
    simp only [List.nil_append] at h2
    rw [convertQVariant.decode_sequence, h2]
  · have h1 : List.Forall₂
        (fun e kv => e.1.as (convertQString codec) = Result.value kv.1
          ∧ e.2.as (convertQVariant codec depth) = Result.value kv.2) entries kvs := by
      refine h.imp ?_
      rintro e kv ⟨hs, hk, hv⟩
      exact ⟨by rw [as_convertQString_of_isScalar codec e.1 hs, hk], hv⟩
    have hdec := decodeEntries_eq_foldl (convertQString codec) (convertQVariant codec depth)
      entries kvs h1 []
    have hwf : QMap.WellFormed (kvs.foldl (fun m kv => QMap.assign m kv.1 kv.2) []) :=
      foldl_assign_wellFormed kvs [] (by simp [QMap.WellFormed])
    refine ⟨kvs.foldl (fun m kv => QMap.assign m kv.1 kv.2) [], ?_, ?_, ?_, ?_⟩
    · rw [convertQVariant.decode_map, hdec]
    · intro k
      rw [foldl_assign_keys]
      simp [QMap.keys]
    · exact QMap.keys_nodup _ hwf
    · intro pre post k v hkvs hk
      rw [hkvs]
      exact foldl_assign_find_last pre post [] k v hk
  · cases depth with
    | zero =>
      intro h2
      have h3 : convertQVariant.decode codec 0 (Node.map entries) out = Outcome.diverged := rfl
      rw [h3] at h2
      cases h2
    | succ d =>
      rw [convertQVariant.decode_map]
      intro h2
      cases hres : decodeEntries (convertQString codec) (convertQVariant codec d) entries []
        with
      | returned ok m =>
        cases ok with
        | true => exact decodeEntries_nonScalar_key codec _ entries h [] m hres
        | false => rw [hres] at h2; cases h2
      | threw e m => rw [hres] at h2; cases h2
      | diverged => rw [hres] at h2; cases h2

/-- Witness of C15 (amended) on the sequence `["a", null]`, on the map
`{"k": "1", "k": "2"}` and on the map `{null: "x"}`. -/
theorem C15_variant_decode_containers_witness :
    convertQVariant.decode utf8Codec 2 (Node.sequence [Node.scalar [0x61], Node.null])
        (QVariant.int 5)
      = Outcome.returned true (QVariant.list [QVariant.string ⟨[0x61]⟩, QVariant.invalid]) ∧
    (∃ m : QMap QString QVariant,
      convertQVariant.decode utf8Codec 2
          (Node.map [(Node.scalar [0x6B], Node.scalar [0x31]),
            (Node.scalar [0x6B], Node.scalar [0x32])]) (QVariant.int 5)
        = Outcome.returned true (QVariant.map m) ∧
      QMap.find m ⟨[0x6B]⟩ = some (QVariant.string ⟨[0x32]⟩)) ∧
    convertQVariant.decode utf8Codec 2 (Node.map [(Node.null, Node.scalar [0x78])])
        (QVariant.int 5)
      ≠ Outcome.returned true (QVariant.map []) := by
  refine ⟨?_, ?_, ?_⟩
  · exact ((C15_variant_decode_containers utf8Codec 1).1
      [Node.scalar [0x61], Node.null] [QVariant.string ⟨[0x61]⟩, QVariant.invalid]
      (List.Forall₂.cons rfl (List.Forall₂.cons rfl List.Forall₂.nil)) (QVariant.int 5)).1
  · obtain ⟨m, hm, _, _, hlast⟩ := (C15_variant_decode_containers utf8Codec 1).2.1
      [(Node.scalar [0x6B], Node.scalar [0x31]), (Node.scalar [0x6B], Node.scalar [0x32])]
      [(⟨[0x6B]⟩, QVariant.string ⟨[0x31]⟩), (⟨[0x6B]⟩, QVariant.string ⟨[0x32]⟩)]
      (List.Forall₂.cons ⟨rfl, rfl, rfl⟩ (List.Forall₂.cons ⟨rfl, rfl, rfl⟩ List.Forall₂.nil))
      (QVariant.int 5)
    exact ⟨m, hm, hlast [(⟨[0x6B]⟩, QVariant.string ⟨[0x31]⟩)] [] ⟨[0x6B]⟩
      (QVariant.string ⟨[0x32]⟩) rfl (by simp)⟩
  · exact (C15_variant_decode_containers utf8Codec 2).2.2
      [(Node.null, Node.scalar [0x78])] ⟨(Node.null, Node.scalar [0x78]), by simp, rfl⟩
      (QVariant.int 5) (QVariant.map [])

/-- C19. The extraction helpers undo the decode asymmetry for primitives: with
a codec that leaves ASCII text as it is, decoding the encoding of a variant
that holds an `int` `i` returns `true` with a variant `w` such that
`variantTo<int>(w) = i`, and decoding the encoding of a variant that holds a
`bool` `b` returns `true` with a variant `w` such that
`variantTo<bool>(w) = b`. -/
theorem C19_extraction_undoes_asymmetry (codec : StringCodec)
    (ha : codec.AsciiTransparent) :
    (∀ i : Int, -2147483648 ≤ i → i ≤ 2147483647 → ∀ (depth : Nat) (out : QVariant),
      ∃ w : QVariant,
        convertQVariant.decode codec (depth + 1)
            (convertQVariant.encode codec (QVariant.int i)) out
          = Outcome.returned true w ∧
        variantTo.int w = i) ∧
    (∀ (b : Bool) (depth : Nat) (out : QVariant),
      ∃ w : QVariant,
        convertQVariant.decode codec (depth + 1)
            (convertQVariant.encode codec (QVariant.bool b)) out
          = Outcome.returned true w ∧
        variantTo.bool w = b) := by
  refine ⟨fun i hlo hhi depth out => ?_, fun b depth out => ?_⟩
  · refine ⟨(QVariant.int i).textForm,
      convertQVariant.decode_encode codec (QVariant.int i) (Or.inl ha) rfl (depth + 1)
        (by simp [QVariant.depth]) out, ?_⟩
    simp only [QVariant.textForm, variantTo.int]
    exact toInt_decimalText i hlo hhi
  · refine ⟨(QVariant.bool b).textForm,
      convertQVariant.decode_encode codec (QVariant.bool b) (Or.inl ha) rfl (depth + 1)
        (by simp [QVariant.depth]) out, ?_⟩
    cases b <;> rfl

/-- Witness of C19 on the `int` `-42` and on the `bool` `true`. -/
theorem C19_extraction_undoes_asymmetry_witness :
    (∃ w : QVariant,
      convertQVariant.decode utf8Codec 1
          (convertQVariant.encode utf8Codec (QVariant.int (-42))) QVariant.invalid
        = Outcome.returned true w ∧
      variantTo.int w = -42) ∧
    (∃ w : QVariant,
      convertQVariant.decode utf8Codec 1
          (convertQVariant.encode utf8Codec (QVariant.bool true)) QVariant.invalid
        = Outcome.returned true w ∧
      variantTo.bool w = true) :=
  ⟨(C19_extraction_undoes_asymmetry utf8Codec utf8Codec_asciiTransparent).1 (-42)
      (by decide) (by decide) 0 QVariant.invalid,
   (C19_extraction_undoes_asymmetry utf8Codec utf8Codec_asciiTransparent).2 true 0
      QVariant.invalid⟩

end QtYaml
